import Mathlib

/-! # URL shortener: encoder, store and service

A shallow embedding of `internal/encoding/base62.go`, `internal/storage/memory.go`
and `internal/service/shortener.go`, followed by the properties proved about them.

Conventions of the embedding:
* a Go `string` is a Lean `String`; the bytes the encoder writes are ASCII, so a byte of
  the alphabet is a `Char`;
* a `uint64` is a `Nat` reduced `% 2 ^ 64` wherever the code can overflow, an `int` is an
  `Int` wrapped into the 64-bit two's-complement range;
* a Go map is an association list without repeated keys (`GoMap`); the length of a Go map
  is an `int`, so a map of the program holds fewer than `2 ^ 63` entries, and the bounds
  on the number of stored mappings in the theorems below hold in every store of the program;
* a method that writes to the store returns the new store next to its result; a method
  that only reads is a function of the store;
* a Go result `(value, error)` is a pair whose second component is `none` for `nil`.

Definitions come first, theorems after them.
-/

namespace UrlShortener

/-! ## internal/encoding/base62.go -/

/-- The constant `alphabet` of `base62.go`. -/
def alphabet : String := "0123456789abcdefghijklmnopqrstuvwxyzABCDEFGHIJKLMNOPQRSTUVWXYZ"

/-- The byte `alphabet[i]`; the type of the index keeps it within the 62 bytes. -/
def alphabetAt (i : Fin 62) : Char :=
  alphabet.toList.get ⟨i.val, lt_of_lt_of_eq i.isLt (by decide)⟩

/-- The loop `for num > 0 { rem := num % 62; encoded.WriteByte(alphabet[rem]); num /= 62 }`,
`encoded` being the content of the `strings.Builder` so far. -/
def encodeLoop (num : Nat) (encoded : List Char) : List Char :=
  if num > 0 then
    encodeLoop (num / 62) (encoded ++ [alphabetAt ⟨num % 62, Nat.mod_lt _ (by decide)⟩])
  else
    encoded
termination_by num
decreasing_by exact Nat.div_lt_self (by assumption) (by decide)

/-- The in-place reversal
`for i, j := 0, len(r)-1; i < j; i, j = i+1, j-1 { r[i], r[j] = r[j], r[i] }`;
both indices are within `r` whenever the body runs. -/
def reverseLoop (r : List Char) (i j : Nat) : List Char :=
  if i < j then
    reverseLoop ((r.set i (r.getD j '0')).set j (r.getD i '0')) (i + 1) (j - 1)
  else
    r
termination_by j - i
decreasing_by omega

/-- `Base62Encode(num uint64) string`. -/
def Base62Encode (num : Nat) : String :=
  if num = 0 then
    String.mk [alphabetAt ⟨0, by decide⟩]
  else
    let r := encodeLoop num []
    String.mk (reverseLoop r 0 (r.length - 1))

/-- The symbol of a base-62 digit given as a natural number (`'0'` beyond the alphabet);
used to state what `Base62Encode` computes. -/
def symbolOf (d : Nat) : Char := alphabet.toList.getD d '0'

/-! ## Go maps -/

/-- A Go `map[string]β`: an association list, the key of every entry occurring once. -/
abbrev GoMap (β : Type) := List (String × β)

/-- The lookup `v, ok := m[k]`: `none` when `ok` is false. -/
def GoMap.get? {β : Type} : GoMap β → String → Option β
  | [], _ => none
  | (k', v) :: rest, k => if k' = k then some v else GoMap.get? rest k

/-- The assignment `m[k] = v`: overwrites the entry of `k` or adds one. -/
def GoMap.set {β : Type} : GoMap β → String → β → GoMap β
  | [], k, v => [(k, v)]
  | (k', v') :: rest, k, v =>
    if k' = k then (k, v) :: rest else (k', v') :: GoMap.set rest k v

/-- The keys of a map, in the order of the association list. -/
def GoMap.keys {β : Type} (m : GoMap β) : List String := m.map Prod.fst

/-! ## The part of Go's `net/url` the code calls -/

/-- The fields of `net/url.URL` that the repository reads. -/
structure URL where
  Scheme : String
  Host : String
deriving DecidableEq, Repr

/-- The three entry points of the standard package `net/url` that the repository calls.
They are not code of the repository; the store and the service are embedded over any
behaviour of them (`none` stands for a non-nil error). -/
structure NetURL where
  ParseRequestURI : String → Option URL
  Parse : String → Option URL
  Hostname : URL → String

/-! ## internal/storage/memory.go -/

/-- The errors of the core: `storage.ErrNotFound` and `service.ErrInvalidURL`. -/
inductive Error where
  | ErrNotFound
  | ErrInvalidURL
deriving DecidableEq, Repr

/-- The struct `DomainStats`. -/
structure DomainStats where
  Domain : String
  Count : Int
deriving DecidableEq, Repr

/-- The struct `InMemoryStore` without its mutex. -/
structure InMemoryStore where
  idCounter : Nat
  codeToURL : GoMap String
  urlToCode : GoMap String
  domainCounts : GoMap Int
deriving DecidableEq, Repr

/-- `NewInMemoryStore()`: the counter is the zero value, the three maps are empty. -/
def NewInMemoryStore : InMemoryStore :=
  { idCounter := 0, codeToURL := [], urlToCode := [], domainCounts := [] }

/-- The value of a Go `int` (64 bits) after an arithmetic result `x`. -/
def wrapInt (x : Int) : Int := (x + 2 ^ 63) % 2 ^ 64 - 2 ^ 63

/-- `NextID()`: `s.idCounter++` on a `uint64`, then `return s.idCounter`. -/
def InMemoryStore.NextID (s : InMemoryStore) : Nat × InMemoryStore :=
  let s' := { s with idCounter := (s.idCounter + 1) % 2 ^ 64 }
  (s'.idCounter, s')

/-- `extractDomain(urlStr)`. -/
def extractDomain (lib : NetURL) (urlStr : String) : String :=
  match lib.Parse urlStr with
  | none => ""
  | some parsed => lib.Hostname parsed

/-- `SaveMapping(code, url)`. A missing key of `domainCounts` reads as the zero value. -/
def InMemoryStore.SaveMapping (lib : NetURL) (s : InMemoryStore) (code url : String) :
    InMemoryStore :=
  let s1 := { s with codeToURL := s.codeToURL.set code url }
  let s2 := { s1 with urlToCode := s1.urlToCode.set url code }
  let domain := extractDomain lib url
  if domain ≠ "" then
    { s2 with domainCounts :=
        s2.domainCounts.set domain (wrapInt ((s2.domainCounts.get? domain).getD 0 + 1)) }
  else
    s2

/-- `GetURL(code)`. -/
def InMemoryStore.GetURL (s : InMemoryStore) (code : String) : String × Option Error :=
  match s.codeToURL.get? code with
  | none => ("", some Error.ErrNotFound)
  | some url => (url, none)

/-- `GetCode(url)`. -/
def InMemoryStore.GetCode (s : InMemoryStore) (url : String) : String × Option Error :=
  match s.urlToCode.get? url with
  | none => ("", some Error.ErrNotFound)
  | some code => (code, none)

/-- The comparison function handed to `sort.Slice` in `GetTopDomains`. -/
def statsLess (x y : DomainStats) : Bool :=
  if x.Count = y.Count then decide (x.Domain < y.Domain) else decide (x.Count > y.Count)

/-- `sort.Slice(x, less)`: the slice sorted so that no element is `less` than one standing
before it. The library sort is not stable; on the entries of a map, which differ in their
keys, `statsLess` leaves no two elements unordered and every sorting procedure returns
this slice. -/
def sortSlice (less : DomainStats → DomainStats → Bool) (x : List DomainStats) :
    List DomainStats :=
  x.insertionSort (fun a b => less b a = false)

/-- The slice `stats` of `GetTopDomains` after the `range` loop over `domainCounts`, in the
order of the association list. -/
def InMemoryStore.snapshot (s : InMemoryStore) : List DomainStats :=
  s.domainCounts.map (fun kv => ({ Domain := kv.1, Count := kv.2 } : DomainStats))

/-- `GetTopDomains(limit)`: the table is copied, sorted with the comparison of the code,
and cut at `limit`. The slice expression `stats[:limit]` panics for a negative `limit`:
that is `none`. -/
def InMemoryStore.GetTopDomains (s : InMemoryStore) (limit : Int) : Option (List DomainStats) :=
  let stats := sortSlice statsLess s.snapshot
  let limit := if limit > (stats.length : Int) then (stats.length : Int) else limit
  if limit < 0 then none else some (stats.take limit.toNat)

/-! ## internal/service/shortener.go -/

/-- `isValidURL(u)`. -/
def isValidURL (lib : NetURL) (u : String) : Bool :=
  match lib.ParseRequestURI u with
  | none => false
  | some parsedUrl =>
    if parsedUrl.Scheme ≠ "http" ∧ parsedUrl.Scheme ≠ "https" then
      false
    else
      decide (parsedUrl.Host ≠ "")

/-- `Shorten(ctx, longURL)`: the result and the store after the call. -/
def Shorten (lib : NetURL) (s : InMemoryStore) (longURL : String) :
    (String × Option Error) × InMemoryStore :=
  if ¬ isValidURL lib longURL then
    (("", some Error.ErrInvalidURL), s)
  else
    match s.GetCode longURL with
    | (code, none) => ((code, none), s)
    | (_, some _) =>
      let (id, s1) := s.NextID
      let code := Base62Encode id
      let s2 := s1.SaveMapping lib code longURL
      ((code, none), s2)

/-- `Resolve(ctx, code)`. -/
def Resolve (s : InMemoryStore) (code : String) : String × Option Error :=
  s.GetURL code

/-- `Shortener.GetTopDomains(ctx, limit)`. -/
def GetTopDomains (s : InMemoryStore) (limit : Int) : Option (List DomainStats) :=
  s.GetTopDomains limit

/-! ## Sequences of calls -/

/-- A call on the `Shortener` interface. -/
inductive Call where
  | Shorten (longURL : String)
  | Resolve (code : String)
  | GetTopDomains (limit : Int)
deriving DecidableEq, Repr

/-- The store after one call, `none` when the call panics: only `Shorten` writes, and
`GetTopDomains` panics on the limits on which the slice expression `stats[:limit]` does. -/
def Call.run (lib : NetURL) (s : InMemoryStore) : Call → Option InMemoryStore
  | Call.Shorten longURL => some (UrlShortener.Shorten lib s longURL).2
  | Call.Resolve _ => some s
  | Call.GetTopDomains limit =>
    match UrlShortener.GetTopDomains s limit with
    | none => none
    | some _ => some s

/-- The store after a sequence of calls, made one after the other; `none` when one of the
calls panics, the calls after it are then not made. -/
def runCalls (lib : NetURL) (s : InMemoryStore) : List Call → Option InMemoryStore
  | [] => some s
  | call :: rest =>
    match Call.run lib s call with
    | none => none
    | some s1 => runCalls lib s1 rest

/-- The store after `Shorten` has been called on each string of `urls` in turn. -/
def shortenAll (lib : NetURL) (s : InMemoryStore) (urls : List String) : InMemoryStore :=
  urls.foldl (fun st u => (Shorten lib st u).2) s

/-- The code returned by each of the calls `Shorten(u)` for `u` in `urls`, in order. -/
def shortenResults (lib : NetURL) (s : InMemoryStore) :
    List String → List (String × Option Error)
  | [] => []
  | u :: rest => (Shorten lib s u).1 :: shortenResults lib (Shorten lib s u).2 rest

/-- The values returned by `n` calls of `NextID` made one after the other, and the store
after them. -/
def nextIDs : Nat → InMemoryStore → List Nat × InMemoryStore
  | 0, s => ([], s)
  | n + 1, s =>
    let r := s.NextID
    let rest := nextIDs n r.2
    (r.1 :: rest.1, rest.2)

/-- The distinct strings of `urls` that `isValidURL` accepts. -/
def accepted (lib : NetURL) (urls : List String) : List String :=
  (urls.filter (fun u => isValidURL lib u)).dedup

/-- The arguments of the `Shorten` calls of a sequence of calls, in order. -/
def shortenArgs : List Call → List String
  | [] => []
  | Call.Shorten longURL :: rest => longURL :: shortenArgs rest
  | Call.Resolve _ :: rest => shortenArgs rest
  | Call.GetTopDomains _ :: rest => shortenArgs rest

/-- The invariant of a store that is only written through `Shorten`: the counter is the
number of stored mappings modulo `2 ^ 64`, every stored code is the encoding of an
identifier issued so far, and, as long as the counter has not wrapped around to an
identifier that is already in use, the two maps are inverse to each other. -/
def StoreInv (s : InMemoryStore) : Prop :=
  s.idCounter = s.urlToCode.length % 2 ^ 64 ∧
  (∀ c u, s.codeToURL.get? c = some u →
      ∃ i, 1 ≤ i ∧ i ≤ s.urlToCode.length ∧ c = Base62Encode (i % 2 ^ 64)) ∧
  (s.urlToCode.length ≤ 2 ^ 64 →
      (∀ c u, s.codeToURL.get? c = some u ↔ s.urlToCode.get? u = some c) ∧
      s.codeToURL.length = s.urlToCode.length)

/-! ## A model of Go's `net/url`

The functions below follow `parse`, `getScheme`, `parseAuthority`, `parseHost`,
`unescape`, `shouldEscape`, `validOptionalPort`, `validUserinfo` and `splitHostPort` of
the standard library (`net/url/url.go`), on lists of characters. They compute the error
outcome and the two fields the repository reads, `Scheme` and `Host`. -/

namespace GoURL

/-- The escaping modes of `net/url`. -/
inductive encoding where
  | encodePath
  | encodePathSegment
  | encodeHost
  | encodeZone
  | encodeUserPassword
  | encodeQueryComponent
  | encodeFragment
deriving DecidableEq, Repr

def isLetter (c : Char) : Bool :=
  (97 ≤ c.toNat && c.toNat ≤ 122) || (65 ≤ c.toNat && c.toNat ≤ 90)

def isDigit (c : Char) : Bool := 48 ≤ c.toNat && c.toNat ≤ 57

/-- `ishex(c)`. -/
def ishex (c : Char) : Bool :=
  isDigit c || (97 ≤ c.toNat && c.toNat ≤ 102) || (65 ≤ c.toNat && c.toNat ≤ 70)

/-- `unhex(c)`. -/
def unhex (c : Char) : Nat :=
  if isDigit c then c.toNat - 48
  else if 97 ≤ c.toNat && c.toNat ≤ 102 then c.toNat - 97 + 10
  else if 65 ≤ c.toNat && c.toNat ≤ 70 then c.toNat - 65 + 10
  else 0

/-- `stringContainsCTLByte(s)`. -/
def stringContainsCTLByte (s : List Char) : Bool :=
  s.any (fun b => b.toNat < 32 || b.toNat == 127)

/-- `strings.Cut(s, sep)` for a one-byte separator: the text before and after the first
`sep`, and whether there is one. -/
def cut (sep : Char) : List Char → List Char × List Char × Bool
  | [] => ([], [], false)
  | c :: cs =>
    if c = sep then ([], cs, true)
    else
      let r := cut sep cs
      (c :: r.1, r.2.1, r.2.2)

/-- `strings.LastIndex(s, sep)` for a one-byte separator, `none` for `-1`; `i` is the
index of the head of the list and `acc` the last match before it. -/
def lastIndexAux (sep : Char) : List Char → Nat → Option Nat → Option Nat
  | [], _, acc => acc
  | c :: cs, i, acc => lastIndexAux sep cs (i + 1) (if c = sep then some i else acc)

def lastIndex (s : List Char) (sep : Char) : Option Nat := lastIndexAux sep s 0 none

/-- `strings.Index(s, sub)`, `none` for `-1`; `i` is the index of the head of the list. -/
def indexAux (sub : List Char) : List Char → Nat → Option Nat
  | [], i => if sub = [] then some i else none
  | c :: cs, i => if sub.isPrefixOf (c :: cs) then some i else indexAux sub cs (i + 1)

def index (s sub : List Char) : Option Nat := indexAux sub s 0

/-- `shouldEscape(c, mode)`. -/
def shouldEscape (c : Char) (mode : encoding) : Bool :=
  if isLetter c || isDigit c then false
  else if (mode = encoding.encodeHost || mode = encoding.encodeZone) &&
      "!$&\x27()*+,;=:[]<>\"".toList.contains c then false
  else if "-_.~".toList.contains c then false
  else if "$&+,/:;=?@".toList.contains c then
    match mode with
    | encoding.encodePath => c = '?'
    | encoding.encodePathSegment => c = '/' || c = ';' || c = ',' || c = '?'
    | encoding.encodeUserPassword => c = '@' || c = '/' || c = '?' || c = ':'
    | encoding.encodeQueryComponent => true
    | encoding.encodeFragment => false
    | _ => true
  else if mode = encoding.encodeFragment && "!()*".toList.contains c then false
  else true

/-- `unescape(s, mode)`: `none` for an error, else the unescaped text. A byte written as
`%XX` is the character of code `XX`. -/
def unescape (mode : encoding) : List Char → Option (List Char)
  | [] => some []
  | c :: rest =>
    if c = '%' then
      match rest with
      | h1 :: h2 :: rest' =>
        if ¬ (ishex h1 && ishex h2) then none
        else if mode = encoding.encodeHost && unhex h1 < 8 && [c, h1, h2] ≠ "%25".toList then
          none
        else if mode = encoding.encodeZone && [c, h1, h2] ≠ "%25".toList &&
            Char.ofNat (unhex h1 * 16 + unhex h2) ≠ ' ' &&
            shouldEscape (Char.ofNat (unhex h1 * 16 + unhex h2)) encoding.encodeHost then
          none
        else
          (unescape mode rest').map (fun t => Char.ofNat (unhex h1 * 16 + unhex h2) :: t)
      | _ => none
    else if c = '+' then
      (unescape mode rest).map
        (fun t => (if mode = encoding.encodeQueryComponent then ' ' else '+') :: t)
    else if (mode = encoding.encodeHost || mode = encoding.encodeZone) && c.toNat < 128 &&
        shouldEscape c encoding.encodeHost then
      none
    else
      (unescape mode rest).map (fun t => c :: t)

/-- `validOptionalPort(port)`. -/
def validOptionalPort : List Char → Bool
  | [] => true
  | c :: rest => c = ':' && rest.all isDigit

/-- `validUserinfo(s)`. -/
def validUserinfo (s : List Char) : Bool :=
  s.all (fun r => isLetter r || isDigit r || "-._:~!$&\x27()*+,;=%@".toList.contains r)

/-- `getScheme(rawURL)`: `none` for the error "missing protocol scheme", else the scheme
and the rest; `i` is the index of the head of the second list in `rawURL`. -/
def getSchemeAux (rawURL : List Char) : List Char → Nat → Option (List Char × List Char)
  | [], _ => some ([], rawURL)
  | c :: cs, i =>
    if isLetter c then getSchemeAux rawURL cs (i + 1)
    else if isDigit c || c = '+' || c = '-' || c = '.' then
      if i = 0 then some ([], rawURL) else getSchemeAux rawURL cs (i + 1)
    else if c = ':' then
      if i = 0 then none else some (rawURL.take i, cs)
    else some ([], rawURL)

def getScheme (rawURL : List Char) : Option (List Char × List Char) :=
  getSchemeAux rawURL rawURL 0

/-- `parseHost(host)`. -/
def parseHost (host : List Char) : Option (List Char) :=
  if "[".toList.isPrefixOf host then
    match lastIndex host ']' with
    | none => none
    | some i =>
      if ¬ validOptionalPort (host.drop (i + 1)) then none
      else
        match index (host.take i) "%25".toList with
        | some zone =>
          match unescape encoding.encodeHost (host.take zone),
              unescape encoding.encodeZone ((host.take i).drop zone),
              unescape encoding.encodeHost (host.drop i) with
          | some host1, some host2, some host3 => some (host1 ++ host2 ++ host3)
          | _, _, _ => none
        | none => unescape encoding.encodeHost host
  else
    match lastIndex host ':' with
    | some i =>
      if ¬ validOptionalPort (host.drop i) then none
      else unescape encoding.encodeHost host
    | none => unescape encoding.encodeHost host

/-- `parseAuthority(authority)`: `none` for an error, else the host. -/
def parseAuthority (authority : List Char) : Option (List Char) :=
  match lastIndex authority '@' with
  | none => parseHost authority
  | some i =>
    match parseHost (authority.drop (i + 1)) with
    | none => none
    | some host =>
      let userinfo := authority.take i
      if ¬ validUserinfo userinfo then none
      else if ¬ userinfo.contains ':' then
        (unescape encoding.encodeUserPassword userinfo).map (fun _ => host)
      else
        let r := cut ':' userinfo
        match unescape encoding.encodeUserPassword r.1,
            unescape encoding.encodeUserPassword r.2.1 with
        | some _, some _ => some host
        | _, _ => none

/-- `parse(rawURL, viaRequest)`: `none` for an error, else `Scheme` and `Host`. -/
def parse (rawURL : List Char) (viaRequest : Bool) : Option (List Char × List Char) :=
  if stringContainsCTLByte rawURL then none
  else if rawURL = [] && viaRequest then none
  else if rawURL = ['*'] then some ([], [])
  else
    match getScheme rawURL with
    | none => none
    | some (scheme, rest) =>
      let scheme := scheme.map Char.toLower
      let rest :=
        if "?".toList.isSuffixOf rest && rest.count '?' = 1 then rest.take (rest.length - 1)
        else (cut '?' rest).1
      if ¬ "/".toList.isPrefixOf rest && scheme ≠ [] then some (scheme, [])
      else if ¬ "/".toList.isPrefixOf rest && viaRequest then none
      else if ¬ "/".toList.isPrefixOf rest && (cut '/' rest).1.contains ':' then none
      else if (scheme ≠ [] || (!viaRequest && !"///".toList.isPrefixOf rest))
          && "//".toList.isPrefixOf rest then
        let r := cut '/' (rest.drop 2)
        let authority := r.1
        let rest := if r.2.2 then '/' :: r.2.1 else []
        match parseAuthority authority with
        | none => none
        | some host =>
          (unescape encoding.encodePath rest).map (fun _ => (scheme, host))
      else
        (unescape encoding.encodePath rest).map (fun _ => (scheme, []))

/-- `splitHostPort(hostPort)`, its first result. -/
def splitHostPort (hostPort : List Char) : List Char :=
  let host :=
    match lastIndex hostPort ':' with
    | some colon => if validOptionalPort (hostPort.drop colon) then hostPort.take colon else hostPort
    | none => hostPort
  if "[".toList.isPrefixOf host && "]".toList.isSuffixOf host then
    (host.drop 1).take (host.length - 2)
  else host

end GoURL

/-- The fields of a parsed URL as a `URL` value. -/
def GoURL.toURL (r : List Char × List Char) : URL :=
  { Scheme := String.mk r.1, Host := String.mk r.2 }

/-- `url.ParseRequestURI(rawURL)`. -/
def GoURL.ParseRequestURI (rawURL : String) : Option URL :=
  (GoURL.parse rawURL.toList true).map GoURL.toURL

/-- `url.Parse(rawURL)`: the fragment is cut off at the first `#` and unescaped apart. -/
def GoURL.Parse (rawURL : String) : Option URL :=
  let r := GoURL.cut '#' rawURL.toList
  match GoURL.parse r.1 false with
  | none => none
  | some p =>
    if r.2.1 = [] then some (GoURL.toURL p)
    else (GoURL.unescape GoURL.encoding.encodeFragment r.2.1).map (fun _ => GoURL.toURL p)

/-- `(*URL).Hostname()`. -/
def GoURL.Hostname (u : URL) : String := String.mk (GoURL.splitHostPort u.Host.toList)

/-- Go's `net/url` as the library the store and the service run on. -/
def goNetURL : NetURL :=
  { ParseRequestURI := GoURL.ParseRequestURI, Parse := GoURL.Parse, Hostname := GoURL.Hostname }

/-- The scheme written at the head of `rawURL`, as `getScheme` reads it, in lower case;
`none` when `getScheme` fails. -/
def GoURL.writtenSchemeLower (rawURL : String) : Option String :=
  (GoURL.getScheme rawURL.toList).map (fun r => String.mk (r.1.map Char.toLower))

/-! ## Reading a code back -/

/-- The value of a symbol: its index in the alphabet. -/
def symbolValue (c : Char) : Nat := alphabet.toList.indexOf c

/-- A string read as a base-62 numeral, most-significant digit first, each symbol valued by
its index in the alphabet. -/
def base62Value (code : String) : Nat :=
  code.toList.foldl (fun acc c => acc * 62 + symbolValue c) 0

/-! ## internal/http/handlers.go -/

/-- What a handler wrote to its `ResponseWriter`: the status code and, when it ended in
`http.Redirect(w, r, url, code)`, the `url` handed over, from which `net/http` sets the
`Location` header. -/
structure Response where
  Code : Nat
  RedirectURL : Option String
deriving DecidableEq, Repr

/-- `http.StatusFound`. -/
def StatusFound : Nat := 302

/-- `(*Server).handleResolve(w, r)` for a request of path `path` (`r.URL.Path`), on the
store of the shortener. The slice expression `r.URL.Path[1:]` panics on an empty path:
that is `none`. -/
def handleResolve (s : InMemoryStore) (path : String) : Option Response :=
  if path = "/" then
    some { Code := 200, RedirectURL := none }
  else if path = "" then
    none
  else
    let code := path.drop 1
    match Resolve s code with
    | (_, some _) => some { Code := 404, RedirectURL := none }
    | (longURL, none) => some { Code := 301, RedirectURL := some longURL }

/-! ## Domain statistics of a sequence of calls -/

/-- The number of distinct accepted URLs of `urls` whose domain is `d`. -/
def domainOccurrences (lib : NetURL) (urls : List String) (d : String) : Nat :=
  ((accepted lib urls).filter (fun u => extractDomain lib u = d)).length

/-- The sum of all the counts of the domain table. -/
def InMemoryStore.countSum (s : InMemoryStore) : Int := (s.domainCounts.map Prod.snd).sum

/-- The invariant of the domain table of a store that is only written through `Shorten`:
a domain is in the table when some stored URL has it, with the `int` reached by counting
those URLs. -/
def DomainInv (lib : NetURL) (s : InMemoryStore) : Prop :=
  ∀ d : String, d ≠ "" →
    s.domainCounts.get? d
      = if (s.urlToCode.keys.filter (fun u => extractDomain lib u = d)).length = 0 then none
        else some (wrapInt ((s.urlToCode.keys.filter
          (fun u => extractDomain lib u = d)).length : Int))

/-- The invariant of the sum of the domain counts of a store that is only written through
`Shorten`, as long as it holds fewer than `2 ^ 63` mappings: no count is negative and the
counts add up to the number of stored URLs with a non-empty domain. -/
def CountSumInv (lib : NetURL) (s : InMemoryStore) : Prop :=
  s.urlToCode.length < 2 ^ 63 →
    (∀ kv ∈ s.domainCounts, 0 ≤ kv.2) ∧
      s.countSum = ((s.urlToCode.keys.filter (fun u => extractDomain lib u ≠ "")).length : Int)

/-! # Theorems -/

/-! ## The encoder: the two loops -/

theorem alphabet_length : alphabet.toList.length = 62 := by decide

theorem encodeLoop_zero (encoded : List Char) : encodeLoop 0 encoded = encoded := by
  rw [encodeLoop]; simp

theorem encodeLoop_pos (num : Nat) (encoded : List Char) (h : 0 < num) :
    encodeLoop num encoded
      = encodeLoop (num / 62) (encoded ++ [alphabetAt ⟨num % 62, Nat.mod_lt _ (by decide)⟩]) := by
  rw [encodeLoop]; simp [h]

theorem alphabetAt_eq_symbolOf (i : Fin 62) : alphabetAt i = symbolOf i.val := by
  unfold alphabetAt symbolOf
  rw [List.getD_eq_getElem _ _ (by rw [alphabet_length]; exact i.isLt)]
  rfl

theorem alphabet_nodup : alphabet.toList.Nodup := by decide

theorem symbolOf_inj {a b : Nat} (ha : a < 62) (hb : b < 62) (h : symbolOf a = symbolOf b) :
    a = b := by
  unfold symbolOf at h
  rw [List.getD_eq_getElem _ _ (by rw [alphabet_length]; exact ha),
    List.getD_eq_getElem _ _ (by rw [alphabet_length]; exact hb)] at h
  exact (List.Nodup.getElem_inj_iff alphabet_nodup).mp h

theorem reverseLoop_lt (r : List Char) (i j : Nat) (h : i < j) :
    reverseLoop r i j
      = reverseLoop ((r.set i (r.getD j '0')).set j (r.getD i '0')) (i + 1) (j - 1) := by
  rw [reverseLoop]; simp [h]

theorem reverseLoop_ge (r : List Char) (i j : Nat) (h : j ≤ i) : reverseLoop r i j = r := by
  rw [reverseLoop]; simp [Nat.not_lt.mpr h]

/-- One round of the reversal loop on a slice `a ++ x :: m ++ [y] ++ b`, at the indices of
`x` and `y`. -/
theorem swap_ends (a m b : List Char) (x y : Char) :
    ((a ++ (x :: (m ++ [y])) ++ b).set a.length
        ((a ++ (x :: (m ++ [y])) ++ b).getD (a.length + m.length + 1) '0')).set
        (a.length + m.length + 1) ((a ++ (x :: (m ++ [y])) ++ b).getD a.length '0')
      = (a ++ [y]) ++ m ++ ([x] ++ b) := by
  have h1 : (a ++ (x :: (m ++ [y])) ++ b).getD a.length '0' = x := by
    have e : a ++ (x :: (m ++ [y])) ++ b = a ++ (x :: (m ++ [y] ++ b)) := by simp
    rw [e, List.getD_eq_getElem?_getD, List.getElem?_append_right (le_refl _)]
    simp
  have h2 : (a ++ (x :: (m ++ [y])) ++ b).getD (a.length + m.length + 1) '0' = y := by
    have : a ++ (x :: (m ++ [y])) ++ b = (a ++ x :: m) ++ (y :: b) := by simp
    rw [this, List.getD_eq_getElem?_getD, List.getElem?_append_right (by simp; omega)]
    simp
    have : a.length + m.length + 1 - (a.length + (m.length + 1)) = 0 := by omega
    rw [this]; simp
  rw [h1, h2]
  have e1 : a ++ (x :: (m ++ [y])) ++ b = a ++ (x :: (m ++ [y] ++ b)) := by simp
  rw [e1, List.set_append_right _ _ (le_refl _)]
  simp only [Nat.sub_self, List.set_cons_zero]
  have e2 : a ++ y :: (m ++ [y] ++ b) = (a ++ y :: m) ++ (y :: b) := by simp
  rw [e2, List.set_append_right _ _ (by simp; omega)]
  have : a.length + m.length + 1 - (a ++ y :: m).length = 0 := by simp; omega
  rw [this]; simp

theorem reverseLoop_append (n : Nat) : ∀ (a m b : List Char), m.length = n →
    reverseLoop (a ++ m ++ b) a.length (a.length + m.length - 1) = a ++ m.reverse ++ b := by
  induction n using Nat.strong_induction_on with
  | _ n ih =>
    intro a m b hn
    rcases m with _ | ⟨x, rest⟩
    · rw [reverseLoop_ge _ _ _ (by simp)]; simp
    · rcases List.eq_nil_or_concat rest with h | ⟨m, y, h⟩
      · subst h
        rw [reverseLoop_ge _ _ _ (by simp)]; simp
      · subst h
        rw [List.concat_eq_append] at hn ⊢
        have hj : a.length + (x :: (m ++ [y])).length - 1 = a.length + m.length + 1 := by
          simp; omega
        rw [hj, reverseLoop_lt _ _ _ (by omega), swap_ends]
        have := ih m.length (by simp at hn; omega) (a ++ [y]) m ([x] ++ b) rfl
        have e : (a ++ [y]).length + m.length - 1 = a.length + m.length + 1 - 1 := by
          simp only [List.length_append, List.length_singleton]; omega
        rw [e] at this
        have e2 : (a ++ [y]).length = a.length + 1 := by simp
        rw [e2] at this
        rw [this]; simp

/-- The reversal loop of `Base62Encode` reverses the slice. -/
theorem reverseLoop_eq_reverse (r : List Char) :
    reverseLoop r 0 (r.length - 1) = r.reverse := by
  have := reverseLoop_append r.length [] r [] rfl
  simpa using this

/-- The encoding loop appends the symbols of the base-62 digits of `n`, least significant
first. -/
theorem encodeLoop_eq_digits (n : Nat) : ∀ encoded : List Char,
    encodeLoop n encoded = encoded ++ (Nat.digits 62 n).map symbolOf := by
  induction n using Nat.strong_induction_on with
  | _ n ih =>
    intro encoded
    rcases Nat.eq_zero_or_pos n with h | h
    · subst h; rw [encodeLoop_zero]; simp
    · rw [encodeLoop_pos _ _ h, ih _ (Nat.div_lt_self h (by decide)),
        Nat.digits_def' (by decide) h, alphabetAt_eq_symbolOf]
      simp

theorem Base62Encode_zero : Base62Encode 0 = "0" := by decide

theorem Base62Encode_eq_reverse (n : Nat) (h : 0 < n) :
    Base62Encode n = String.mk (encodeLoop n []).reverse := by
  unfold Base62Encode
  rw [if_neg (Nat.pos_iff_ne_zero.mp h)]
  simp only [reverseLoop_eq_reverse]

theorem Base62Encode_pos (n : Nat) (h : 0 < n) :
    Base62Encode n = String.mk ((Nat.digits 62 n).map symbolOf).reverse := by
  unfold Base62Encode
  rw [if_neg (Nat.pos_iff_ne_zero.mp h)]
  simp only [reverseLoop_eq_reverse, encodeLoop_eq_digits, List.nil_append]

theorem map_symbolOf_inj : ∀ (l₁ l₂ : List Nat), (∀ d ∈ l₁, d < 62) → (∀ d ∈ l₂, d < 62) →
    l₁.map symbolOf = l₂.map symbolOf → l₁ = l₂
  | [], [], _, _, _ => rfl
  | [], _ :: _, _, _, h => by simp at h
  | _ :: _, [], _, _, h => by simp at h
  | a :: l₁, b :: l₂, h₁, h₂, h => by
    simp only [List.map_cons, List.cons.injEq] at h
    rw [symbolOf_inj (h₁ a (by simp)) (h₂ b (by simp)) h.1,
      map_symbolOf_inj l₁ l₂ (fun d hd => h₁ d (by simp [hd])) (fun d hd => h₂ d (by simp [hd])) h.2]

theorem Base62Encode_pos_ne_zero (n : Nat) (h : 0 < n) : Base62Encode n ≠ Base62Encode 0 := by
  rw [Base62Encode_pos n h, Base62Encode_zero]
  intro hc
  have h1 : ((Nat.digits 62 n).map symbolOf).reverse = ['0'] := by
    have := congrArg String.data hc
    simpa using this
  have h2 : (Nat.digits 62 n).map symbolOf = ['0'] := by
    have := congrArg List.reverse h1
    simpa using this
  have hne : Nat.digits 62 n ≠ [] := Nat.digits_ne_nil_iff_ne_zero.mpr (Nat.pos_iff_ne_zero.mp h)
  have hlast := Nat.getLast_digit_ne_zero 62 (Nat.pos_iff_ne_zero.mp h)
  rcases hd : Nat.digits 62 n with _ | ⟨d, rest⟩
  · exact hne hd
  · rw [hd] at h2
    simp only [List.map_cons, List.cons.injEq, List.map_eq_nil_iff] at h2
    obtain ⟨hd0, hrest⟩ := h2
    subst hrest
    have hlt : d < 62 := Nat.digits_lt_base (by decide) (by rw [hd]; simp)
    have : d = 0 := symbolOf_inj hlt (by decide) (by rw [hd0]; decide)
    simp [hd] at hlast
    exact hlast this

theorem Base62Encode_inj (a b : Nat) (h : Base62Encode a = Base62Encode b) : a = b := by
  rcases Nat.eq_zero_or_pos a with ha | ha <;> rcases Nat.eq_zero_or_pos b with hb | hb
  · rw [ha, hb]
  · subst ha; exact absurd h.symm (Base62Encode_pos_ne_zero b hb)
  · subst hb; exact absurd h (Base62Encode_pos_ne_zero a ha)
  · rw [Base62Encode_pos a ha, Base62Encode_pos b hb] at h
    have h1 : ((Nat.digits 62 a).map symbolOf).reverse = ((Nat.digits 62 b).map symbolOf).reverse := by
      have := congrArg String.data h
      simpa using this
    have h2 := List.reverse_injective h1
    have h3 := map_symbolOf_inj _ _ (fun d hd => Nat.digits_lt_base (by decide) hd)
      (fun d hd => Nat.digits_lt_base (by decide) hd) h2
    exact Nat.digits_inj_iff.mp h3

theorem Base62Encode_small (n : Nat) (h0 : 0 < n) (h : n < 62) :
    Base62Encode n = String.mk [alphabetAt ⟨n, h⟩] := by
  rw [Base62Encode_eq_reverse n h0, encodeLoop_pos n [] h0]
  have hdiv : n / 62 = 0 := Nat.div_eq_of_lt h
  have hmod : n % 62 = n := Nat.mod_eq_of_lt h
  simp [hdiv, hmod, encodeLoop_zero]

/-! ## Go maps -/

theorem GoMap.get?_set_self {β : Type} (m : GoMap β) (k : String) (v : β) :
    (m.set k v).get? k = some v := by
  induction m with
  | nil => simp [GoMap.set, GoMap.get?]
  | cons kv rest ih =>
    obtain ⟨k', v'⟩ := kv
    by_cases h : k' = k
    · simp [GoMap.set, GoMap.get?, h]
    · simp [GoMap.set, GoMap.get?, h, ih]

theorem GoMap.get?_set_ne {β : Type} (m : GoMap β) (k k' : String) (v : β) (hne : k' ≠ k) :
    (m.set k v).get? k' = m.get? k' := by
  induction m with
  | nil => simp [GoMap.set, GoMap.get?, Ne.symm hne]
  | cons kv rest ih =>
    obtain ⟨k₁, v₁⟩ := kv
    by_cases h : k₁ = k
    · subst h
      simp [GoMap.set, GoMap.get?, Ne.symm hne]
    · by_cases h' : k₁ = k'
      · subst h'
        simp [GoMap.set, GoMap.get?, h]
      · simp [GoMap.set, GoMap.get?, h, h', ih]

theorem GoMap.length_set_of_none {β : Type} (m : GoMap β) (k : String) (v : β)
    (h : m.get? k = none) : (m.set k v).length = m.length + 1 := by
  induction m with
  | nil => simp [GoMap.set]
  | cons kv rest ih =>
    obtain ⟨k', v'⟩ := kv
    by_cases hk : k' = k
    · simp [GoMap.get?, hk] at h
    · simp only [GoMap.get?, hk, if_false] at h
      simp [GoMap.set, hk, ih h]

/-! ## The three cases of `Shorten` -/

theorem Shorten_invalid (lib : NetURL) (s : InMemoryStore) (u : String)
    (h : isValidURL lib u = false) :
    Shorten lib s u = (("", some Error.ErrInvalidURL), s) := by
  simp [Shorten, h]

theorem Shorten_existing (lib : NetURL) (s : InMemoryStore) (u c : String)
    (h : isValidURL lib u = true) (hc : s.urlToCode.get? u = some c) :
    Shorten lib s u = ((c, none), s) := by
  simp [Shorten, h, InMemoryStore.GetCode, hc]

theorem Shorten_new (lib : NetURL) (s : InMemoryStore) (u : String)
    (h : isValidURL lib u = true) (hc : s.urlToCode.get? u = none) :
    Shorten lib s u
      = ((Base62Encode ((s.idCounter + 1) % 2 ^ 64), none),
          InMemoryStore.SaveMapping lib { s with idCounter := (s.idCounter + 1) % 2 ^ 64 }
            (Base62Encode ((s.idCounter + 1) % 2 ^ 64)) u) := by
  simp [Shorten, h, InMemoryStore.GetCode, hc, InMemoryStore.NextID]

theorem SaveMapping_idCounter (lib : NetURL) (s : InMemoryStore) (code url : String) :
    (s.SaveMapping lib code url).idCounter = s.idCounter := by
  unfold InMemoryStore.SaveMapping
  by_cases h : extractDomain lib url = "" <;> simp [h]

theorem SaveMapping_codeToURL (lib : NetURL) (s : InMemoryStore) (code url : String) :
    (s.SaveMapping lib code url).codeToURL = s.codeToURL.set code url := by
  unfold InMemoryStore.SaveMapping
  by_cases h : extractDomain lib url = "" <;> simp [h]

theorem SaveMapping_urlToCode (lib : NetURL) (s : InMemoryStore) (code url : String) :
    (s.SaveMapping lib code url).urlToCode = s.urlToCode.set url code := by
  unfold InMemoryStore.SaveMapping
  by_cases h : extractDomain lib url = "" <;> simp [h]

/-- The code a successful `Shorten(u)` returns is the one `urlToCode` holds for `u`
afterwards. -/
theorem Shorten_urlToCode_self (lib : NetURL) (s : InMemoryStore) (u : String)
    (h : isValidURL lib u = true) :
    (Shorten lib s u).1.2 = none ∧
      (Shorten lib s u).2.urlToCode.get? u = some (Shorten lib s u).1.1 := by
  rcases hc : s.urlToCode.get? u with _ | c
  · rw [Shorten_new lib s u h hc]
    simp [SaveMapping_urlToCode, GoMap.get?_set_self]
  · rw [Shorten_existing lib s u c h hc]
    simp [hc]

/-- An entry of `urlToCode` survives every later `Shorten`. -/
theorem Shorten_urlToCode_stable (lib : NetURL) (s : InMemoryStore) (u c v : String)
    (hc : s.urlToCode.get? u = some c) :
    (Shorten lib s v).2.urlToCode.get? u = some c := by
  by_cases hv : isValidURL lib v = true
  · rcases hg : s.urlToCode.get? v with _ | c'
    · have hne : u ≠ v := by
        intro e; rw [e, hg] at hc; cases hc
      rw [Shorten_new lib s v hv hg]
      simp only [SaveMapping_urlToCode]
      rw [GoMap.get?_set_ne _ _ _ _ hne]
      exact hc
    · rw [Shorten_existing lib s v c' hv hg]; exact hc
  · rw [Shorten_invalid lib s v (by simpa using hv)]; exact hc

theorem shortenAll_urlToCode_stable (lib : NetURL) (urls : List String) :
    ∀ (s : InMemoryStore) (u c : String), s.urlToCode.get? u = some c →
      (shortenAll lib s urls).urlToCode.get? u = some c := by
  induction urls with
  | nil => intro s u c h; exact h
  | cons v rest ih =>
    intro s u c h
    exact ih _ u c (Shorten_urlToCode_stable lib s u c v h)

/-! ## The invariant of the stores written through `Shorten` -/

theorem two_pow_64 : (2 : Nat) ^ 64 = 18446744073709551616 := by norm_num

theorem StoreInv_new : StoreInv NewInMemoryStore := by
  refine ⟨by simp [NewInMemoryStore], ?_, ?_⟩
  · intro c u h; simp [NewInMemoryStore, GoMap.get?] at h
  · intro _; simp [NewInMemoryStore, GoMap.get?]

theorem Shorten_length_le (lib : NetURL) (s : InMemoryStore) (v : String) :
    s.urlToCode.length ≤ (Shorten lib s v).2.urlToCode.length := by
  by_cases hv : isValidURL lib v = true
  · rcases hg : s.urlToCode.get? v with _ | c'
    · rw [Shorten_new lib s v hv hg]
      simp only [SaveMapping_urlToCode]
      rw [GoMap.length_set_of_none _ _ _ hg]; omega
    · rw [Shorten_existing lib s v c' hv hg]
  · rw [Shorten_invalid lib s v (by simpa using hv)]

theorem StoreInv_Shorten (lib : NetURL) (s : InMemoryStore) (v : String) (hs : StoreInv s) :
    StoreInv (Shorten lib s v).2 := by
  by_cases hv : isValidURL lib v = true
  · rcases hg : s.urlToCode.get? v with _ | c'
    · obtain ⟨h1, h2, h3⟩ := hs
      rw [Shorten_new lib s v hv hg]
      have hlen : (s.urlToCode.set v (Base62Encode ((s.idCounter + 1) % 2 ^ 64))).length
          = s.urlToCode.length + 1 := GoMap.length_set_of_none _ _ _ hg
      have hid : (s.idCounter + 1) % 2 ^ 64 = (s.urlToCode.length + 1) % 2 ^ 64 := by
        rw [h1, two_pow_64]; omega
      refine ⟨?_, ?_, ?_⟩
      · simp only [SaveMapping_idCounter, SaveMapping_urlToCode, hlen]
        exact hid
      · intro c u hcu
        simp only [SaveMapping_codeToURL, SaveMapping_urlToCode, hlen] at hcu ⊢
        by_cases hc : c = Base62Encode ((s.idCounter + 1) % 2 ^ 64)
        · exact ⟨s.urlToCode.length + 1, by omega, le_refl _, by rw [hc, hid]⟩
        · rw [GoMap.get?_set_ne _ _ _ _ hc] at hcu
          obtain ⟨i, hi1, hi2, hi3⟩ := h2 c u hcu
          exact ⟨i, hi1, by omega, hi3⟩
      · simp only [SaveMapping_codeToURL, SaveMapping_urlToCode, hlen]
        intro hk
        obtain ⟨hbij, hcl⟩ := h3 (by omega)
        have hfresh : s.codeToURL.get? (Base62Encode ((s.idCounter + 1) % 2 ^ 64)) = none := by
          rcases hq : s.codeToURL.get? (Base62Encode ((s.idCounter + 1) % 2 ^ 64)) with _ | u'
          · rfl
          · exfalso
            obtain ⟨i, hi1, hi2, hi3⟩ := h2 _ _ hq
            have := Base62Encode_inj _ _ hi3
            rw [hid, two_pow_64] at this
            rw [two_pow_64] at hk
            omega
        refine ⟨?_, ?_⟩
        · intro c u
          by_cases hc : c = Base62Encode ((s.idCounter + 1) % 2 ^ 64)
          · subst hc
            rw [GoMap.get?_set_self]
            by_cases hu : u = v
            · subst hu; rw [GoMap.get?_set_self]; simp
            · rw [GoMap.get?_set_ne _ _ _ _ hu]
              constructor
              · intro h; exact absurd (Option.some.inj h).symm hu
              · intro h
                rw [(hbij _ _).mpr h] at hfresh; cases hfresh
          · rw [GoMap.get?_set_ne _ _ _ _ hc]
            by_cases hu : u = v
            · subst hu
              rw [GoMap.get?_set_self]
              constructor
              · intro h
                rw [(hbij _ _).mp h] at hg; cases hg
              · intro h; exact absurd (Option.some.inj h).symm hc
            · rw [GoMap.get?_set_ne _ _ _ _ hu]
              exact hbij c u
        · rw [GoMap.length_set_of_none _ _ _ hfresh, hcl]
    · rw [Shorten_existing lib s v c' hv hg]; exact hs
  · rw [Shorten_invalid lib s v (by simpa using hv)]; exact hs

theorem StoreInv_shortenAll (lib : NetURL) (urls : List String) :
    ∀ s : InMemoryStore, StoreInv s → StoreInv (shortenAll lib s urls) := by
  induction urls with
  | nil => intro s h; exact h
  | cons v rest ih => intro s h; exact ih _ (StoreInv_Shorten lib s v h)

theorem shortenAll_length_le (lib : NetURL) (urls : List String) :
    ∀ s : InMemoryStore, s.urlToCode.length ≤ (shortenAll lib s urls).urlToCode.length := by
  induction urls with
  | nil => intro s; exact le_refl _
  | cons v rest ih => intro s; exact le_trans (Shorten_length_le lib s v) (ih _)

theorem shortenAll_append (lib : NetURL) (s : InMemoryStore) (l₁ l₂ : List String) :
    shortenAll lib s (l₁ ++ l₂) = shortenAll lib (shortenAll lib s l₁) l₂ := by
  simp [shortenAll, List.foldl_append]

/-! ## The stored URLs are the distinct accepted URLs of the sequence -/

theorem shortenAll_snoc (lib : NetURL) (s : InMemoryStore) (urls : List String) (v : String) :
    shortenAll lib s (urls ++ [v]) = (Shorten lib (shortenAll lib s urls) v).2 := by
  simp [shortenAll, List.foldl_append]

theorem accepted_length (lib : NetURL) (urls : List String) :
    (accepted lib urls).length = (urls.filter (fun u => isValidURL lib u)).toFinset.card := by
  unfold accepted
  rw [List.card_toFinset]

theorem mem_accepted (lib : NetURL) (urls : List String) (u : String) :
    u ∈ accepted lib urls ↔ u ∈ urls ∧ isValidURL lib u = true := by
  simp [accepted]

theorem accepted_length_snoc_le (lib : NetURL) (urls : List String) (v : String) :
    (accepted lib urls).length ≤ (accepted lib (urls ++ [v])).length := by
  rw [accepted_length, accepted_length]
  apply Finset.card_le_card
  intro x hx
  simp only [List.mem_toFinset, List.mem_filter, List.mem_append] at hx ⊢
  exact ⟨Or.inl hx.1, hx.2⟩

theorem accepted_length_append_le (lib : NetURL) (l₁ l₂ : List String) :
    (accepted lib l₁).length ≤ (accepted lib (l₁ ++ l₂)).length := by
  rw [accepted_length, accepted_length]
  apply Finset.card_le_card
  intro x hx
  simp only [List.mem_toFinset, List.mem_filter, List.mem_append] at hx ⊢
  exact ⟨Or.inl hx.1, hx.2⟩

/-- After any sequence of `Shorten` calls on a fresh store, `urlToCode` has an entry exactly
for the accepted URLs of the sequence, and as many entries as there are distinct ones. -/
theorem shortenAll_keys (lib : NetURL) (urls : List String) :
    (∀ u, (∃ c, (shortenAll lib NewInMemoryStore urls).urlToCode.get? u = some c)
        ↔ u ∈ accepted lib urls) ∧
      (shortenAll lib NewInMemoryStore urls).urlToCode.length = (accepted lib urls).length := by
  induction urls using List.reverseRecOn with
  | nil =>
    simp [shortenAll, NewInMemoryStore, GoMap.get?, accepted]
  | append_singleton urls v ih =>
    obtain ⟨ih1, ih2⟩ := ih
    rw [shortenAll_snoc]
    by_cases hv : isValidURL lib v = true
    · rcases hg : (shortenAll lib NewInMemoryStore urls).urlToCode.get? v with _ | c'
      · have hnot : v ∉ accepted lib urls := by
          intro hmem
          obtain ⟨c, hc⟩ := (ih1 v).mpr hmem
          rw [hc] at hg; cases hg
        rw [Shorten_new lib _ v hv hg]
        simp only [SaveMapping_urlToCode]
        refine ⟨?_, ?_⟩
        · intro u
          by_cases hu : u = v
          · subst hu
            rw [GoMap.get?_set_self, mem_accepted]
            simp [hv]
          · rw [GoMap.get?_set_ne _ _ _ _ hu, ih1 u, mem_accepted, mem_accepted]
            simp [hu]
        · rw [GoMap.length_set_of_none _ _ _ hg, ih2, accepted_length, accepted_length]
          have hfil : (urls ++ [v]).filter (fun u => isValidURL lib u)
              = urls.filter (fun u => isValidURL lib u) ++ [v] := by
            simp [List.filter_append, hv]
          have hnot2 : v ∉ (urls.filter (fun u => isValidURL lib u)).toFinset := by
            intro hmem
            apply hnot
            rw [mem_accepted]
            simpa using hmem
          rw [hfil, List.toFinset_append]
          simp only [List.toFinset_cons, List.toFinset_nil, insert_emptyc_eq]
          rw [Finset.union_comm, ← Finset.insert_eq, Finset.card_insert_of_not_mem hnot2]
      · have hmem : v ∈ accepted lib urls := (ih1 v).mp ⟨c', hg⟩
        rw [Shorten_existing lib _ v c' hv hg]
        have hacc : ∀ u, u ∈ accepted lib (urls ++ [v]) ↔ u ∈ accepted lib urls := by
          intro u
          rw [mem_accepted, mem_accepted]
          constructor
          · rintro ⟨h1, h2⟩
            rcases List.mem_append.mp h1 with h | h
            · exact ⟨h, h2⟩
            · rw [List.mem_singleton.mp h]
              exact (mem_accepted lib urls v).mp hmem
          · rintro ⟨h1, h2⟩
            exact ⟨List.mem_append.mpr (Or.inl h1), h2⟩
        refine ⟨fun u => by rw [ih1 u, hacc u], ?_⟩
        rw [ih2, accepted_length, accepted_length]
        congr 1
        ext u
        have := hacc u
        simp only [mem_accepted] at this
        simp only [List.mem_toFinset, List.mem_filter]
        exact this.symm
    · have hv' : isValidURL lib v = false := by simpa using hv
      rw [Shorten_invalid lib _ v hv']
      have hfil : (urls ++ [v]).filter (fun u => isValidURL lib u)
          = urls.filter (fun u => isValidURL lib u) := by
        simp [List.filter_append, hv']
      have hacc : accepted lib (urls ++ [v]) = accepted lib urls := by
        unfold accepted; rw [hfil]
      rw [hacc]
      exact ⟨ih1, ih2⟩

/-! ## Sequences of calls and the values they return -/

theorem GetTopDomains_isSome (s : InMemoryStore) (limit : Int) (h : 0 ≤ limit) :
    ∃ r, GetTopDomains s limit = some r := by
  have hlen : (0 : Int) ≤ ((sortSlice statsLess s.snapshot).length : Int) :=
    Int.natCast_nonneg _
  simp only [GetTopDomains, InMemoryStore.GetTopDomains]
  by_cases h1 : limit > ((sortSlice statsLess s.snapshot).length : Int)
  · rw [if_pos h1, if_neg (by omega)]
    exact ⟨_, rfl⟩
  · rw [if_neg h1, if_neg (by omega)]
    exact ⟨_, rfl⟩

theorem GetTopDomains_negative (s : InMemoryStore) (limit : Int) (h : limit < 0) :
    GetTopDomains s limit = none := by
  have hlen : (0 : Int) ≤ ((sortSlice statsLess s.snapshot).length : Int) :=
    Int.natCast_nonneg _
  have hin : (if limit > ((sortSlice statsLess s.snapshot).length : Int)
      then ((sortSlice statsLess s.snapshot).length : Int) else limit) = limit :=
    if_neg (by omega)
  simp only [GetTopDomains, InMemoryStore.GetTopDomains]
  rw [hin, if_pos h]

/-- A sequence of calls that runs to its end leaves the store that its `Shorten` calls
alone leave. -/
theorem runCalls_eq_shortenAll (lib : NetURL) (calls : List Call) :
    ∀ s s1 : InMemoryStore, runCalls lib s calls = some s1 →
      s1 = shortenAll lib s (shortenArgs calls) := by
  induction calls with
  | nil =>
    intro s s1 h
    simp only [runCalls, Option.some.injEq] at h
    rw [← h]; rfl
  | cons call rest ih =>
    intro s s1 h
    cases call with
    | Shorten longURL =>
      simp only [runCalls, Call.run] at h
      simp only [shortenAll, shortenArgs, List.foldl_cons]
      exact ih _ _ h
    | Resolve code =>
      simp only [runCalls, Call.run] at h
      simp only [shortenArgs]
      exact ih _ _ h
    | GetTopDomains limit =>
      simp only [runCalls, Call.run] at h
      simp only [shortenArgs]
      cases hg : GetTopDomains s limit with
      | none => rw [hg] at h; simp at h
      | some r => rw [hg] at h; exact ih _ _ h

/-- A sequence of calls in which no `GetTopDomains` is given a negative limit runs to
its end. -/
theorem runCalls_isSome (lib : NetURL) (calls : List Call) :
    ∀ s : InMemoryStore, (∀ limit, Call.GetTopDomains limit ∈ calls → 0 ≤ limit) →
      ∃ s1, runCalls lib s calls = some s1 := by
  induction calls with
  | nil => intro s _; exact ⟨s, rfl⟩
  | cons call rest ih =>
    intro s h
    have hrest : ∀ limit, Call.GetTopDomains limit ∈ rest → 0 ≤ limit :=
      fun limit hm => h limit (List.mem_cons_of_mem _ hm)
    cases call with
    | Shorten longURL =>
      simp only [runCalls, Call.run]
      exact ih _ hrest
    | Resolve code =>
      simp only [runCalls, Call.run]
      exact ih _ hrest
    | GetTopDomains limit =>
      obtain ⟨r, hr⟩ := GetTopDomains_isSome s limit (h limit (List.mem_cons_self _ _))
      simp only [runCalls, Call.run, hr]
      exact ih _ hrest

/-- A sequence of calls with a `GetTopDomains` of negative limit in it panics. -/
theorem runCalls_negative_limit (lib : NetURL) (calls : List Call) :
    ∀ s : InMemoryStore, (∃ limit, Call.GetTopDomains limit ∈ calls ∧ limit < 0) →
      runCalls lib s calls = none := by
  induction calls with
  | nil => intro s h; obtain ⟨_, hm, _⟩ := h; simp at hm
  | cons call rest ih =>
    intro s h
    obtain ⟨limit, hm, hneg⟩ := h
    cases call with
    | Shorten longURL =>
      simp only [runCalls, Call.run]
      refine ih _ ⟨limit, ?_, hneg⟩
      simpa using hm
    | Resolve code =>
      simp only [runCalls, Call.run]
      refine ih _ ⟨limit, ?_, hneg⟩
      simpa using hm
    | GetTopDomains l =>
      simp only [runCalls, Call.run]
      cases hg : GetTopDomains s l with
      | none => rfl
      | some r =>
        simp only
        have hl : 0 ≤ l := by
          by_contra hc
          rw [GetTopDomains_negative s l (by omega)] at hg
          simp at hg
        refine ih _ ⟨limit, ?_, hneg⟩
        rcases List.mem_cons.mp hm with he | hm2
        · have : limit = l := by injection he
          omega
        · exact hm2

theorem shortenArgs_append (l₁ l₂ : List Call) :
    shortenArgs (l₁ ++ l₂) = shortenArgs l₁ ++ shortenArgs l₂ := by
  induction l₁ with
  | nil => rfl
  | cons call rest ih => cases call <;> simp [shortenArgs, ih]

/-- A call `Shorten(u)` of the sequence with an accepted `u` returned the code that
`urlToCode` holds for `u` at the end of the sequence. -/
theorem shortenResults_eq (lib : NetURL) (urls : List String) :
    ∀ (s : InMemoryStore) (u : String) (r : String × Option Error),
      (u, r) ∈ urls.zip (shortenResults lib s urls) → isValidURL lib u = true →
      r.2 = none ∧ (shortenAll lib s urls).urlToCode.get? u = some r.1 := by
  induction urls with
  | nil => intro s u r h; simp at h
  | cons v rest ih =>
    intro s u r h hu
    simp only [shortenResults, List.zip_cons_cons, List.mem_cons, Prod.mk.injEq] at h
    rcases h with ⟨h1, h2⟩ | h
    · subst h1; subst h2
      obtain ⟨e1, e2⟩ := Shorten_urlToCode_self lib s u hu
      refine ⟨e1, ?_⟩
      simp only [shortenAll, List.foldl_cons]
      exact shortenAll_urlToCode_stable lib rest _ u _ e2
    · simp only [shortenAll, List.foldl_cons]
      exact ih _ u r h hu

/-- The invariant holds in every store reached from a fresh one by `Shorten` calls, with
the number of stored mappings read off the sequence. -/
theorem reachable_inv (lib : NetURL) (urls : List String) :
    StoreInv (shortenAll lib NewInMemoryStore urls) ∧
      (shortenAll lib NewInMemoryStore urls).urlToCode.length = (accepted lib urls).length :=
  ⟨StoreInv_shortenAll lib urls _ StoreInv_new, (shortenAll_keys lib urls).2⟩

theorem reachable_bijection (lib : NetURL) (urls : List String)
    (hbound : (accepted lib urls).length ≤ 2 ^ 64) (c u : String) :
    (shortenAll lib NewInMemoryStore urls).codeToURL.get? c = some u
      ↔ (shortenAll lib NewInMemoryStore urls).urlToCode.get? u = some c := by
  obtain ⟨⟨_, _, h3⟩, hlen⟩ := reachable_inv lib urls
  exact (h3 (by rw [hlen]; exact hbound)).1 c u

theorem reachable_idCounter (lib : NetURL) (urls : List String) :
    (shortenAll lib NewInMemoryStore urls).idCounter = (accepted lib urls).length % 2 ^ 64 := by
  obtain ⟨⟨h1, _, _⟩, hlen⟩ := reachable_inv lib urls
  rw [h1, hlen]

theorem Shorten_ok_valid (lib : NetURL) (s : InMemoryStore) (u c : String)
    (h : (Shorten lib s u).1 = (c, none)) : isValidURL lib u = true := by
  by_contra hv
  rw [Shorten_invalid lib s u (by simpa using hv)] at h
  simp at h

/-! ## The encoder: C4 and C5 -/

/-- C4. `Base62Encode` is injective on the unsigned 64-bit integers: two different
identifiers never get the same code. -/
theorem Base62Encode_injective_uint64 (a b : Nat) (_ha : a < 2 ^ 64) (_hb : b < 2 ^ 64)
    (hab : a ≠ b) : Base62Encode a ≠ Base62Encode b :=
  fun h => hab (Base62Encode_inj a b h)

theorem Base62Encode_injective_uint64_witness :
    (61 : Nat) < 2 ^ 64 ∧ (62 : Nat) < 2 ^ 64 ∧ (61 : Nat) ≠ 62 ∧
      Base62Encode 61 ≠ Base62Encode 62 :=
  ⟨by decide, by decide, by decide,
    Base62Encode_injective_uint64 61 62 (by decide) (by decide) (by decide)⟩

/-- C5. `Base62Encode` returns the codes that the specification and the tests list. -/
theorem Base62Encode_known_codes :
    Base62Encode 0 = "0" ∧ Base62Encode 1 = "1" ∧ Base62Encode 9 = "9" ∧
      Base62Encode 10 = "a" ∧ Base62Encode 35 = "z" ∧ Base62Encode 36 = "A" ∧
      Base62Encode 61 = "Z" ∧ Base62Encode 62 = "10" ∧ Base62Encode 63 = "11" ∧
      Base62Encode 100 = "1C" ∧ Base62Encode 1000 = "g8" ∧ Base62Encode 10000 = "2Bi" ∧
      Base62Encode 100000 = "q0U" ∧ Base62Encode 1000000 = "4c92" ∧
      Base62Encode 123456789 = "8m0Kx" := by
  refine ⟨by decide, ?_, ?_, ?_, ?_, ?_, ?_, ?_, ?_, ?_, ?_, ?_, ?_, ?_, ?_⟩ <;>
    (rw [Base62Encode_eq_reverse _ (by decide)]
     simp [encodeLoop_pos, encodeLoop_zero]
     decide)

/-! ## The service: C1, C2, C3, C6, C7, C8, C9 -/

/-- C1. Round trip: on a fresh store, and on every store reached from it by a sequence of
`Shorten` calls, for every URL `u` accepted by `isValidURL`, `Shorten(u)` succeeds with
some code `c` and `Resolve(c)` then returns exactly `u` with no error. The store holds
`(accepted lib urls).length` mappings before the call (`reachable_inv`); the hypothesis
`hbound` is the capacity of its maps, a Go map having fewer than `2 ^ 63` entries. -/
theorem shorten_resolve_round_trip (lib : NetURL) (urls : List String) (u : String)
    (hu : isValidURL lib u = true) (hbound : (accepted lib urls).length ≤ 2 ^ 64) :
    ∃ c, (Shorten lib (shortenAll lib NewInMemoryStore urls) u).1 = (c, none) ∧
      Resolve (Shorten lib (shortenAll lib NewInMemoryStore urls) u).2 c = (u, none) := by
  rcases hg : (shortenAll lib NewInMemoryStore urls).urlToCode.get? u with _ | c
  · rw [Shorten_new lib _ u hu hg]
    refine ⟨_, rfl, ?_⟩
    simp [Resolve, InMemoryStore.GetURL, SaveMapping_codeToURL, GoMap.get?_set_self]
  · rw [Shorten_existing lib _ u c hu hg]
    refine ⟨c, rfl, ?_⟩
    have := (reachable_bijection lib urls hbound c u).mpr hg
    simp [Resolve, InMemoryStore.GetURL, this]

/-- C2. Idempotence: for every valid URL `u`, two calls `Shorten(u)` on a store that
started fresh, with any `Shorten` calls before and between them, both succeed and return
the same code. -/
theorem shorten_idempotent (lib : NetURL) (before between : List String) (u : String)
    (hu : isValidURL lib u = true) :
    (Shorten lib (shortenAll lib NewInMemoryStore before) u).1.2 = none ∧
      (Shorten lib
          (shortenAll lib (Shorten lib (shortenAll lib NewInMemoryStore before) u).2 between)
          u).1
        = (Shorten lib (shortenAll lib NewInMemoryStore before) u).1 := by
  obtain ⟨e1, e2⟩ := Shorten_urlToCode_self lib (shortenAll lib NewInMemoryStore before) u hu
  have e3 := shortenAll_urlToCode_stable lib between _ u _ e2
  refine ⟨e1, ?_⟩
  rw [Shorten_existing lib _ u _ hu e3]
  exact Prod.ext rfl e1.symm

/-- C3. For every store and every string `u` that fails `isValidURL`, `Shorten(u)` returns
the empty code with `ErrInvalidURL` and leaves `idCounter`, `codeToURL`, `urlToCode` and
`domainCounts` as they were. -/
theorem shorten_invalid_no_change (lib : NetURL) (s : InMemoryStore) (u : String)
    (hu : isValidURL lib u = false) :
    (Shorten lib s u).1 = ("", some Error.ErrInvalidURL) ∧
      (Shorten lib s u).2.idCounter = s.idCounter ∧
      (Shorten lib s u).2.codeToURL = s.codeToURL ∧
      (Shorten lib s u).2.urlToCode = s.urlToCode ∧
      (Shorten lib s u).2.domainCounts = s.domainCounts := by
  rw [Shorten_invalid lib s u hu]
  exact ⟨rfl, rfl, rfl, rfl, rfl⟩

/-- C6. Uniqueness invariant: in every store reached from a fresh one by `Shorten` calls,
`codeToURL` and `urlToCode` are inverse to each other, so no code is attached to two URLs
and no URL to two codes; and two calls of the sequence with different valid URLs returned
different codes. The store holds `(accepted lib urls).length` mappings (`reachable_inv`);
the hypothesis `hbound` is the capacity of its maps, a Go map having fewer than `2 ^ 63`
entries. -/
theorem code_url_bijection (lib : NetURL) (urls : List String)
    (hbound : (accepted lib urls).length ≤ 2 ^ 64) :
    (∀ c u, (shortenAll lib NewInMemoryStore urls).codeToURL.get? c = some u
        ↔ (shortenAll lib NewInMemoryStore urls).urlToCode.get? u = some c) ∧
      (∀ c u₁ u₂, (shortenAll lib NewInMemoryStore urls).urlToCode.get? u₁ = some c →
        (shortenAll lib NewInMemoryStore urls).urlToCode.get? u₂ = some c → u₁ = u₂) ∧
      (∀ u c₁ c₂, (shortenAll lib NewInMemoryStore urls).codeToURL.get? c₁ = some u →
        (shortenAll lib NewInMemoryStore urls).codeToURL.get? c₂ = some u → c₁ = c₂) ∧
      (∀ u₁ r₁ u₂ r₂, (u₁, r₁) ∈ urls.zip (shortenResults lib NewInMemoryStore urls) →
        (u₂, r₂) ∈ urls.zip (shortenResults lib NewInMemoryStore urls) →
        isValidURL lib u₁ = true → isValidURL lib u₂ = true → u₁ ≠ u₂ → r₁.1 ≠ r₂.1) := by
  have hbij := reachable_bijection lib urls hbound
  refine ⟨hbij, ?_, ?_, ?_⟩
  · intro c u₁ u₂ h₁ h₂
    have e₁ := (hbij c u₁).mpr h₁
    have e₂ := (hbij c u₂).mpr h₂
    rw [e₁] at e₂
    exact Option.some.inj e₂
  · intro u c₁ c₂ h₁ h₂
    have e₁ := (hbij c₁ u).mp h₁
    have e₂ := (hbij c₂ u).mp h₂
    rw [e₁] at e₂
    exact Option.some.inj e₂
  · intro u₁ r₁ u₂ r₂ h₁ h₂ hv₁ hv₂ hne hr
    have e₁ := (shortenResults_eq lib urls _ u₁ r₁ h₁ hv₁).2
    have e₂ := (shortenResults_eq lib urls _ u₂ r₂ h₂ hv₂).2
    rw [hr] at e₁
    have f₁ := (hbij _ _).mpr e₁
    have f₂ := (hbij _ _).mpr e₂
    rw [f₁] at f₂
    exact hne (Option.some.inj f₂)

/-- C7. Mappings are never mutated or deleted: once `Shorten(u)` has returned code `c` on
a store that started fresh and was driven by the calls `before`, then after any further
sequence `later` of `Shorten`, `Resolve` and `GetTopDomains` calls, `Resolve(c)` still
returns `u`. This holds for every sequence that runs to its end, and a sequence does so
when no `GetTopDomains` of it is given a negative limit, on which the call panics. The
hypothesis `hbound` bounds the number of mappings stored at the end by the capacity of the
maps, a Go map having fewer than `2 ^ 63` entries. -/
theorem mapping_never_changes (lib : NetURL) (before later : List Call) (u c : String)
    (s0 : InMemoryStore) (hbefore : runCalls lib NewInMemoryStore before = some s0)
    (hret : (Shorten lib s0 u).1 = (c, none))
    (hbound : (accepted lib (shortenArgs (before ++ Call.Shorten u :: later))).length
      ≤ 2 ^ 64) :
    (∀ s1, runCalls lib (Shorten lib s0 u).2 later = some s1 → Resolve s1 c = (u, none)) ∧
      ((∀ limit, Call.GetTopDomains limit ∈ later → 0 ≤ limit) →
        ∃ s1, runCalls lib (Shorten lib s0 u).2 later = some s1 ∧
          Resolve s1 c = (u, none)) := by
  have hu := Shorten_ok_valid lib _ u c hret
  obtain ⟨_, e2⟩ := Shorten_urlToCode_self lib s0 u hu
  rw [hret] at e2
  have hs0 := runCalls_eq_shortenAll lib before _ _ hbefore
  have hall : ∀ s1, runCalls lib (Shorten lib s0 u).2 later = some s1 →
      Resolve s1 c = (u, none) := by
    intro s1 hlater
    have hs1 := runCalls_eq_shortenAll lib later _ _ hlater
    have hfinal : s1
        = shortenAll lib NewInMemoryStore (shortenArgs (before ++ Call.Shorten u :: later)) := by
      rw [hs1, hs0, shortenArgs_append]
      simp only [shortenArgs]
      rw [shortenAll_append]
      simp only [shortenAll, List.foldl_cons]
    have e3 := shortenAll_urlToCode_stable lib (shortenArgs later) _ u c e2
    rw [← hs1, hfinal] at e3
    rw [hfinal]
    have := (reachable_bijection lib _ hbound c u).mpr e3
    simp [Resolve, InMemoryStore.GetURL, this]
  refine ⟨hall, fun hlimits => ?_⟩
  obtain ⟨s1, h1⟩ := runCalls_isSome lib later (Shorten lib s0 u).2 hlimits
  exact ⟨s1, h1, hall s1 h1⟩

/-- C8. Dedup leaves the store untouched: for every store and every valid URL `u` for
which `GetCode(u)` already succeeds, `Shorten(u)` returns that code and changes nothing:
`idCounter`, `codeToURL`, `urlToCode` and `domainCounts` are as before the call. -/
theorem shorten_dedup_no_change (lib : NetURL) (s : InMemoryStore) (u : String)
    (hu : isValidURL lib u = true) (hcode : (s.GetCode u).2 = none) :
    (Shorten lib s u).1 = ((s.GetCode u).1, none) ∧
      (Shorten lib s u).2.idCounter = s.idCounter ∧
      (Shorten lib s u).2.codeToURL = s.codeToURL ∧
      (Shorten lib s u).2.urlToCode = s.urlToCode ∧
      (Shorten lib s u).2.domainCounts = s.domainCounts := by
  rcases hg : s.urlToCode.get? u with _ | c
  · simp [InMemoryStore.GetCode, hg] at hcode
  · rw [Shorten_existing lib s u c hu hg]
    simp [InMemoryStore.GetCode, hg]

/-- C9. The identifier counter is incremented once per newly accepted URL: after a
sequence of `Shorten` calls on a fresh store, `idCounter` is the number of distinct valid
URL strings of the sequence, which is also the number of entries of `codeToURL` and of
`urlToCode`; a further `Shorten` of an invalid string or of a string of the sequence does
not change the counter. The hypothesis `hbound` bounds that number of entries by the
capacity of the maps, a Go map having fewer than `2 ^ 63` entries. -/
theorem idCounter_counts_accepted (lib : NetURL) (urls : List String)
    (hbound : (accepted lib urls).length < 2 ^ 64) :
    (shortenAll lib NewInMemoryStore urls).idCounter = (accepted lib urls).length ∧
      (shortenAll lib NewInMemoryStore urls).codeToURL.length = (accepted lib urls).length ∧
      (shortenAll lib NewInMemoryStore urls).urlToCode.length = (accepted lib urls).length ∧
      (∀ u, isValidURL lib u = false ∨ u ∈ urls →
        (Shorten lib (shortenAll lib NewInMemoryStore urls) u).2.idCounter
          = (shortenAll lib NewInMemoryStore urls).idCounter) := by
  obtain ⟨⟨_, _, h3⟩, hlen⟩ := reachable_inv lib urls
  refine ⟨?_, ?_, hlen, ?_⟩
  · rw [reachable_idCounter, Nat.mod_eq_of_lt hbound]
  · rw [(h3 (by rw [hlen]; exact le_of_lt hbound)).2, hlen]
  · intro u hu
    by_cases hv : isValidURL lib u = true
    · rcases hu with hu | hu
      · rw [hu] at hv; cases hv
      · obtain ⟨c, hc⟩ := ((shortenAll_keys lib urls).1 u).mpr
          ((mem_accepted lib urls u).mpr ⟨hu, hv⟩)
        rw [Shorten_existing lib _ u c hv hc]
    · rw [Shorten_invalid lib _ u (by simpa using hv)]

/-! ## The identifier counter: C10 -/

theorem nextIDs_values (n : Nat) : ∀ s : InMemoryStore,
    (nextIDs n s).1 = (List.range' 1 n).map (fun i => (s.idCounter + i) % 2 ^ 64) ∧
      (nextIDs n s).2 = { s with idCounter := if n = 0 then s.idCounter
                                              else (s.idCounter + n) % 2 ^ 64 } := by
  induction n with
  | zero => intro s; simp [nextIDs]
  | succ n ih =>
    intro s
    obtain ⟨ih1, ih2⟩ := ih (s.NextID).2
    have hrange : List.range' 1 (n + 1) = 1 :: (List.range' 1 n).map (fun i => i + 1) := by
      rw [List.range'_succ, ← List.map_add_range']
      simp [Nat.add_comm]
    refine ⟨?_, ?_⟩
    · simp only [nextIDs, ih1, hrange, List.map_cons, List.map_map]
      congr 1
      apply List.map_congr_left
      intro i _
      simp only [InMemoryStore.NextID, Function.comp, two_pow_64]
      omega
    · simp only [nextIDs, ih2]
      simp only [InMemoryStore.NextID, two_pow_64]
      by_cases hn : n = 0
      · subst hn; simp
      · simp only [hn, if_false, Nat.succ_ne_zero]
        congr 1
        omega

/-- C10, amended. For every `N < 2 ^ 64`, `N` sequential calls to `NextID` on a fresh
store return exactly `1, 2, …, N` in that order: distinct, strictly increasing values
starting at 1, with only the counter of the store changed, to `N`. A single call on a
counter below `2 ^ 64 - 1` returns the old counter plus one, and whatever the counter it
changes nothing in the store but the counter. -/
theorem nextID_sequence (N : Nat) (hN : N < 2 ^ 64) :
    (nextIDs N NewInMemoryStore).1 = List.range' 1 N ∧
      (nextIDs N NewInMemoryStore).1.Pairwise (fun a b => a < b) ∧
      (nextIDs N NewInMemoryStore).1.Nodup ∧
      (nextIDs N NewInMemoryStore).2 = { NewInMemoryStore with idCounter := N } ∧
      (∀ s : InMemoryStore, s.idCounter + 1 < 2 ^ 64 →
        s.NextID.1 = s.idCounter + 1 ∧ s.NextID.2.idCounter = s.idCounter + 1) ∧
      (∀ s : InMemoryStore, s.NextID.2.codeToURL = s.codeToURL ∧
        s.NextID.2.urlToCode = s.urlToCode ∧ s.NextID.2.domainCounts = s.domainCounts) := by
  obtain ⟨h1, h2⟩ := nextIDs_values N NewInMemoryStore
  have hvals : (nextIDs N NewInMemoryStore).1 = List.range' 1 N := by
    rw [h1]
    conv_rhs => rw [← List.map_id (List.range' 1 N)]
    apply List.map_congr_left
    intro i hi
    have hi2 := (List.mem_range'_1.mp hi).2
    simp only [NewInMemoryStore, Nat.zero_add, id]
    exact Nat.mod_eq_of_lt (by omega)
  refine ⟨hvals, ?_, ?_, ?_, ?_, ?_⟩
  · rw [hvals]; exact List.pairwise_lt_range' 1 N
  · rw [hvals]; exact List.nodup_range' 1 N
  · rw [h2]
    by_cases hn : N = 0
    · subst hn; simp [NewInMemoryStore]
    · have hN2 : N < 18446744073709551616 := by simpa using hN
      simp [NewInMemoryStore, hn, Nat.mod_eq_of_lt hN2]
  · intro s hs
    have hs2 : s.idCounter + 1 < 18446744073709551616 := by simpa using hs
    simp [InMemoryStore.NextID, Nat.mod_eq_of_lt hs2]
  · intro s
    simp [InMemoryStore.NextID]

theorem nextID_sequence_witness :
    (nextIDs 3 NewInMemoryStore).1 = List.range' 1 3 ∧
      (nextIDs 3 NewInMemoryStore).1.Pairwise (fun a b => a < b) ∧
      (nextIDs 3 NewInMemoryStore).1.Nodup ∧
      (nextIDs 3 NewInMemoryStore).2 = { NewInMemoryStore with idCounter := 3 } ∧
      (∀ s : InMemoryStore, s.idCounter + 1 < 2 ^ 64 →
        s.NextID.1 = s.idCounter + 1 ∧ s.NextID.2.idCounter = s.idCounter + 1) ∧
      (∀ s : InMemoryStore, s.NextID.2.codeToURL = s.codeToURL ∧
        s.NextID.2.urlToCode = s.urlToCode ∧ s.NextID.2.domainCounts = s.domainCounts) :=
  nextID_sequence 3 (by decide)

/-- C10 as stated fails for `N = 2 ^ 64`: the last of `2 ^ 64` sequential calls to `NextID`
on a fresh store returns 0, the `uint64` counter having wrapped around, so the values
returned are not `1, 2, …, 2 ^ 64`. -/
theorem nextID_sequence_wraps :
    (nextIDs (2 ^ 64) NewInMemoryStore).1.getLast? = some 0 ∧
      (nextIDs (2 ^ 64) NewInMemoryStore).1 ≠ List.range' 1 (2 ^ 64) := by
  have h1 := (nextIDs_values (2 ^ 64) NewInMemoryStore).1
  have hsplit : List.range' 1 (2 ^ 64) = List.range' 1 (2 ^ 64 - 1) ++ [2 ^ 64] := by
    have : (2 : Nat) ^ 64 = (2 ^ 64 - 1) + 1 := by norm_num
    conv_lhs => rw [this, List.range'_1_concat]
    norm_num
  have hlast : (nextIDs (2 ^ 64) NewInMemoryStore).1.getLast? = some 0 := by
    rw [h1, hsplit, List.map_append]
    simp [NewInMemoryStore]
  refine ⟨hlast, ?_⟩
  intro h
  rw [h, hsplit] at hlast
  simp at hlast

/-! ## The first code issued by a fresh store -/

theorem Base62Encode_first : Base62Encode ((0 + 1) % 2 ^ 64) = "1" := by
  have h : (0 + 1) % 2 ^ 64 = 1 := by norm_num
  rw [h, Base62Encode_small 1 (by decide) (by decide)]
  decide

/-- The first URL accepted by a fresh store is given the code `"1"` and keeps it in
`urlToCode` whatever is shortened afterwards. -/
theorem first_code (lib : NetURL) (u : String) (rest : List String)
    (hu : isValidURL lib u = true) :
    (Shorten lib NewInMemoryStore u).1 = ("1", none) ∧
      (shortenAll lib NewInMemoryStore (u :: rest)).urlToCode.get? u = some "1" := by
  have hnew : NewInMemoryStore.urlToCode.get? u = none := rfl
  have hS := Shorten_new lib NewInMemoryStore u hu hnew
  have hid : NewInMemoryStore.idCounter = 0 := rfl
  rw [hid, Base62Encode_first] at hS
  refine ⟨by rw [hS], ?_⟩
  simp only [shortenAll, List.foldl_cons]
  apply shortenAll_urlToCode_stable
  rw [hS]
  simp [SaveMapping_urlToCode, GoMap.get?_set_self]

/-! ## The theorems at concrete inputs -/

theorem shorten_resolve_round_trip_witness :
    isValidURL goNetURL "https://example.com/resolve" = true ∧
      (accepted goNetURL ["https://example.com/1"]).length ≤ 2 ^ 64 ∧
      ∃ c, (Shorten goNetURL (shortenAll goNetURL NewInMemoryStore ["https://example.com/1"])
            "https://example.com/resolve").1 = (c, none) ∧
        Resolve (Shorten goNetURL (shortenAll goNetURL NewInMemoryStore ["https://example.com/1"])
            "https://example.com/resolve").2 c = ("https://example.com/resolve", none) :=
  ⟨by decide, by decide,
    shorten_resolve_round_trip goNetURL ["https://example.com/1"] "https://example.com/resolve"
      (by decide) (by decide)⟩

theorem shorten_idempotent_witness :
    isValidURL goNetURL "https://example.com/duplicate" = true ∧
      (Shorten goNetURL (shortenAll goNetURL NewInMemoryStore ["https://example.com/1"])
          "https://example.com/duplicate").1.2 = none ∧
      (Shorten goNetURL
          (shortenAll goNetURL
            (Shorten goNetURL (shortenAll goNetURL NewInMemoryStore ["https://example.com/1"])
              "https://example.com/duplicate").2
            ["https://google.com", "not-a-url"])
          "https://example.com/duplicate").1
        = (Shorten goNetURL (shortenAll goNetURL NewInMemoryStore ["https://example.com/1"])
            "https://example.com/duplicate").1 :=
  ⟨by decide,
    shorten_idempotent goNetURL ["https://example.com/1"] ["https://google.com", "not-a-url"]
      "https://example.com/duplicate" (by decide)⟩

theorem shorten_invalid_no_change_witness :
    isValidURL goNetURL "ftp://example.com" = false ∧
      (Shorten goNetURL NewInMemoryStore "ftp://example.com").1
        = ("", some Error.ErrInvalidURL) ∧
      (Shorten goNetURL NewInMemoryStore "ftp://example.com").2.idCounter
        = NewInMemoryStore.idCounter ∧
      (Shorten goNetURL NewInMemoryStore "ftp://example.com").2.codeToURL
        = NewInMemoryStore.codeToURL ∧
      (Shorten goNetURL NewInMemoryStore "ftp://example.com").2.urlToCode
        = NewInMemoryStore.urlToCode ∧
      (Shorten goNetURL NewInMemoryStore "ftp://example.com").2.domainCounts
        = NewInMemoryStore.domainCounts :=
  ⟨by decide, shorten_invalid_no_change goNetURL NewInMemoryStore "ftp://example.com" (by decide)⟩

theorem code_url_bijection_witness :
    (accepted goNetURL ["https://example.com/1", "https://example.com/2"]).length ≤ 2 ^ 64 ∧
      ((shortenAll goNetURL NewInMemoryStore
          ["https://example.com/1", "https://example.com/2"]).codeToURL.get? "2"
            = some "https://example.com/2"
        ↔ (shortenAll goNetURL NewInMemoryStore
          ["https://example.com/1", "https://example.com/2"]).urlToCode.get?
            "https://example.com/2" = some "2") :=
  ⟨by decide,
    (code_url_bijection goNetURL ["https://example.com/1", "https://example.com/2"]
      (by decide)).1 "2" "https://example.com/2"⟩

theorem mapping_never_changes_witness :
    runCalls goNetURL NewInMemoryStore [Call.Resolve "1", Call.GetTopDomains 0]
        = some NewInMemoryStore ∧
      (Shorten goNetURL NewInMemoryStore "https://example.com/1").1 = ("1", none) ∧
      (∃ s1, runCalls goNetURL (Shorten goNetURL NewInMemoryStore "https://example.com/1").2
          [Call.Shorten "https://google.com", Call.Resolve "1", Call.GetTopDomains 3,
            Call.Shorten "not-a-url", Call.Shorten "https://example.com/1"] = some s1 ∧
        Resolve s1 "1" = ("https://example.com/1", none)) :=
  ⟨rfl, (first_code goNetURL "https://example.com/1" [] (by decide)).1,
    (mapping_never_changes goNetURL [Call.Resolve "1", Call.GetTopDomains 0]
      [Call.Shorten "https://google.com", Call.Resolve "1", Call.GetTopDomains 3,
        Call.Shorten "not-a-url", Call.Shorten "https://example.com/1"]
      "https://example.com/1" "1" NewInMemoryStore rfl
      (first_code goNetURL "https://example.com/1" [] (by decide)).1 (by decide)).2
      (by intro limit h; simp at h; omega)⟩

theorem shorten_dedup_no_change_witness :
    isValidURL goNetURL "https://example.com/duplicate" = true ∧
      (InMemoryStore.GetCode
        { idCounter := 1, codeToURL := [("1", "https://example.com/duplicate")],
          urlToCode := [("https://example.com/duplicate", "1")],
          domainCounts := [("example.com", 1)] }
        "https://example.com/duplicate") = ("1", none) ∧
      (Shorten goNetURL
        { idCounter := 1, codeToURL := [("1", "https://example.com/duplicate")],
          urlToCode := [("https://example.com/duplicate", "1")],
          domainCounts := [("example.com", 1)] }
        "https://example.com/duplicate").1 = ("1", none) :=
  ⟨by decide, by decide,
    (shorten_dedup_no_change goNetURL
      { idCounter := 1, codeToURL := [("1", "https://example.com/duplicate")],
        urlToCode := [("https://example.com/duplicate", "1")],
        domainCounts := [("example.com", 1)] }
      "https://example.com/duplicate" (by decide) (by decide)).1⟩

theorem idCounter_counts_accepted_witness :
    (accepted goNetURL
        ["https://example.com/1", "not-a-url", "https://example.com/1", "https://google.com"]).length
        = 2 ∧
      (shortenAll goNetURL NewInMemoryStore
        ["https://example.com/1", "not-a-url", "https://example.com/1",
          "https://google.com"]).idCounter
        = (accepted goNetURL
            ["https://example.com/1", "not-a-url", "https://example.com/1",
              "https://google.com"]).length :=
  ⟨by decide,
    (idCounter_counts_accepted goNetURL
      ["https://example.com/1", "not-a-url", "https://example.com/1", "https://google.com"]
      (by decide)).1⟩

/-! ## The comparison of `GetTopDomains` -/

theorem statsLess_iff (x y : DomainStats) :
    statsLess x y = true
      ↔ x.Count > y.Count ∨ (x.Count = y.Count ∧ x.Domain < y.Domain) := by
  unfold statsLess
  by_cases h : x.Count = y.Count
  · simp [h]
  · simp [h]

/-- The comparison with the order of the domain names read on their characters, the
form in which it is evaluated. -/
theorem statsLess_eq_list (x y : DomainStats) :
    statsLess x y = (if x.Count = y.Count then decide (x.Domain.toList < y.Domain.toList)
      else decide (x.Count > y.Count)) := by
  unfold statsLess
  by_cases h : x.Count = y.Count <;> simp [h]

theorem statsLess_irrefl (x : DomainStats) : statsLess x x = false := by
  rw [← Bool.not_eq_true, statsLess_iff]
  simp

theorem statsLess_asymm (x y : DomainStats) (h : statsLess x y = true) :
    statsLess y x = false := by
  rw [← Bool.not_eq_true, statsLess_iff]
  rw [statsLess_iff] at h
  rintro (h' | ⟨h1, h2⟩)
  · rcases h with h | ⟨h3, _⟩
    · exact absurd h (not_lt.mpr (le_of_lt h'))
    · rw [h3] at h'; exact lt_irrefl _ h'
  · rcases h with h | ⟨_, h4⟩
    · rw [h1] at h; exact lt_irrefl _ h
    · exact lt_asymm h2 h4

theorem statsLess_trans (x y z : DomainStats) (h₁ : statsLess x y = true)
    (h₂ : statsLess y z = true) : statsLess x z = true := by
  rw [statsLess_iff] at h₁ h₂ ⊢
  rcases h₁ with h₁ | ⟨e₁, l₁⟩ <;> rcases h₂ with h₂ | ⟨e₂, l₂⟩
  · exact Or.inl (lt_trans h₂ h₁)
  · exact Or.inl (by rw [← e₂]; exact h₁)
  · exact Or.inl (by rw [e₁]; exact h₂)
  · exact Or.inr ⟨e₁.trans e₂, lt_trans l₁ l₂⟩

/-- Two different entries are ordered by `statsLess` one way or the other. -/
theorem statsLess_total (x y : DomainStats) (hne : x ≠ y) (h : statsLess y x = false) :
    statsLess x y = true := by
  rw [← Bool.not_eq_true, statsLess_iff] at h
  rw [statsLess_iff]
  push_neg at h
  rcases lt_trichotomy x.Count y.Count with hc | hc | hc
  · exact absurd hc (not_lt.mpr h.1)
  · rcases lt_trichotomy x.Domain y.Domain with hd | hd | hd
    · exact Or.inr ⟨hc, hd⟩
    · exfalso
      apply hne
      cases x; cases y
      simp only [DomainStats.mk.injEq]
      exact ⟨hd, hc⟩
    · exact absurd hd (h.2 hc.symm)
  · exact Or.inl hc

/-! ## Keys of a Go map -/

theorem GoMap.get?_eq_none_iff {β : Type} (m : GoMap β) (k : String) :
    m.get? k = none ↔ k ∉ m.keys := by
  induction m with
  | nil => simp [GoMap.get?, GoMap.keys]
  | cons kv rest ih =>
    obtain ⟨k', v⟩ := kv
    by_cases h : k' = k
    · simp [GoMap.get?, GoMap.keys, h]
    · have h' : ¬ k = k' := fun e => h e.symm
      simp only [GoMap.get?, h, if_false, ih]
      simp [GoMap.keys, h']

theorem GoMap.mem_of_get? {β : Type} (m : GoMap β) (k : String) (v : β)
    (h : m.get? k = some v) : (k, v) ∈ m := by
  induction m with
  | nil => simp [GoMap.get?] at h
  | cons kv rest ih =>
    obtain ⟨k', v'⟩ := kv
    by_cases hk : k' = k
    · simp only [GoMap.get?, hk, if_true, Option.some.injEq] at h
      simp [hk, h]
    · simp only [GoMap.get?, hk, if_false] at h
      exact List.mem_cons_of_mem _ (ih h)

theorem GoMap.get?_of_mem {β : Type} (m : GoMap β) (k : String) (v : β)
    (hnd : m.keys.Nodup) (h : (k, v) ∈ m) : m.get? k = some v := by
  induction m with
  | nil => simp at h
  | cons kv rest ih =>
    obtain ⟨k', v'⟩ := kv
    simp only [GoMap.keys, List.map_cons, List.nodup_cons] at hnd
    rcases List.mem_cons.mp h with h | h
    · simp only [Prod.mk.injEq] at h
      simp [GoMap.get?, h.1, h.2]
    · have hk : k' ≠ k := by
        intro e
        apply hnd.1
        rw [e]
        exact List.mem_map.mpr ⟨(k, v), h, rfl⟩
      simp only [GoMap.get?, hk, if_false]
      exact ih hnd.2 h

theorem GoMap.keys_set {β : Type} (m : GoMap β) (k : String) (v : β) :
    (m.set k v).keys = if k ∈ m.keys then m.keys else m.keys ++ [k] := by
  induction m with
  | nil => simp [GoMap.set, GoMap.keys]
  | cons kv rest ih =>
    obtain ⟨k', v'⟩ := kv
    by_cases h : k' = k
    · simp [GoMap.set, GoMap.keys, h]
    · have h' : ¬ k = k' := fun e => h e.symm
      simp only [GoMap.keys] at ih
      simp only [GoMap.set, h, if_false, GoMap.keys, List.map_cons, ih, List.mem_cons, h',
        false_or]
      by_cases hm : k ∈ List.map Prod.fst rest <;> simp [hm]

/-- An assignment keeps the keys of a map distinct. -/
theorem GoMap.nodup_set {β : Type} (m : GoMap β) (k : String) (v : β)
    (hnd : m.keys.Nodup) : (m.set k v).keys.Nodup := by
  rw [GoMap.keys_set]
  by_cases h : k ∈ m.keys
  · simp [h, hnd]
  · simp only [h, if_false]
    rw [List.nodup_append]
    refine ⟨hnd, List.nodup_singleton k, ?_⟩
    intro a ha hb
    rw [List.mem_singleton.mp hb] at ha
    exact h ha

theorem SaveMapping_domainCounts_nodup (lib : NetURL) (s : InMemoryStore) (code url : String)
    (hnd : s.domainCounts.keys.Nodup) : (s.SaveMapping lib code url).domainCounts.keys.Nodup := by
  unfold InMemoryStore.SaveMapping
  by_cases h : extractDomain lib url = ""
  · simp [h, hnd]
  · simp only [h, ne_eq, not_false_eq_true, if_true]
    exact GoMap.nodup_set _ _ _ hnd

theorem Shorten_domainCounts_nodup (lib : NetURL) (s : InMemoryStore) (v : String)
    (hnd : s.domainCounts.keys.Nodup) : (Shorten lib s v).2.domainCounts.keys.Nodup := by
  by_cases hv : isValidURL lib v = true
  · rcases hg : s.urlToCode.get? v with _ | c'
    · rw [Shorten_new lib s v hv hg]
      exact SaveMapping_domainCounts_nodup lib _ _ _ hnd
    · rw [Shorten_existing lib s v c' hv hg]; exact hnd
  · rw [Shorten_invalid lib s v (by simpa using hv)]; exact hnd

/-! ## The sorted snapshot -/

theorem snapshot_nodup (s : InMemoryStore) (hnd : s.domainCounts.keys.Nodup) :
    s.snapshot.Nodup := by
  unfold InMemoryStore.snapshot
  have hfst : List.map (fun x : DomainStats => x.Domain)
      (List.map (fun kv : String × Int => ({ Domain := kv.1, Count := kv.2 } : DomainStats))
        s.domainCounts) = s.domainCounts.keys := by
    rw [List.map_map]; rfl
  have := hfst ▸ hnd
  exact List.Nodup.of_map _ this

theorem mem_snapshot (s : InMemoryStore) (hnd : s.domainCounts.keys.Nodup) (x : DomainStats) :
    x ∈ s.snapshot ↔ s.domainCounts.get? x.Domain = some x.Count := by
  unfold InMemoryStore.snapshot
  constructor
  · intro h
    obtain ⟨kv, hkv, rfl⟩ := List.mem_map.mp h
    exact GoMap.get?_of_mem _ _ _ hnd hkv
  · intro h
    exact List.mem_map.mpr ⟨(x.Domain, x.Count), GoMap.mem_of_get? _ _ _ h, rfl⟩

theorem sortSlice_perm (x : List DomainStats) : (sortSlice statsLess x).Perm x :=
  List.perm_insertionSort _ x

theorem sortSlice_length (x : List DomainStats) : (sortSlice statsLess x).length = x.length :=
  List.length_insertionSort _ x

/-- On a slice without repeated elements the sorted slice is strictly ordered: each element
is `statsLess` than every later one. -/
theorem sortSlice_pairwise (x : List DomainStats) (hnd : x.Nodup) :
    (sortSlice statsLess x).Pairwise (fun a b => statsLess a b = true) := by
  have htotal : IsTotal DomainStats (fun a b => statsLess b a = false) :=
    ⟨fun a b => by
      by_cases h : statsLess b a = true
      · exact Or.inr (statsLess_asymm b a h)
      · exact Or.inl (by simpa using h)⟩
  have htrans : IsTrans DomainStats (fun a b => statsLess b a = false) :=
    ⟨fun a b c hab hbc => by
      by_contra hca
      have hca : statsLess c a = true := by simpa using hca
      by_cases hbe : b = c
      · rw [hbe] at hab; rw [hab] at hca; cases hca
      · have hbc' := statsLess_total b c hbe hbc
        have hba := statsLess_trans b c a hbc' hca
        rw [hab] at hba; cases hba⟩
  have hsorted : List.Sorted (fun a b => statsLess b a = false) (sortSlice statsLess x) :=
    @List.sorted_insertionSort _ (fun a b => statsLess b a = false) _ htotal htrans x
  have hnd' : (sortSlice statsLess x).Nodup := (sortSlice_perm x).nodup_iff.mpr hnd
  have hboth := List.Pairwise.and hsorted hnd'
  exact hboth.imp (fun {a b} h => statsLess_total a b h.2 h.1)

/-- The sorted slice is the only strictly ordered arrangement of the elements. -/
theorem sortSlice_unique (x L : List DomainStats) (hnd : x.Nodup) (hperm : L.Perm x)
    (hsorted : L.Pairwise (fun a b => statsLess a b = true)) : sortSlice statsLess x = L := by
  have hanti : IsAntisymm DomainStats (fun a b => statsLess a b = true) :=
    ⟨fun a b hab hba => by rw [statsLess_asymm a b hab] at hba; cases hba⟩
  exact @List.eq_of_perm_of_sorted _ (fun a b => statsLess a b = true) hanti _ _
    ((sortSlice_perm x).trans hperm.symm) (sortSlice_pairwise x hnd) hsorted

theorem GetTopDomains_eq (s : InMemoryStore) (limit : Int) (hlimit : 0 ≤ limit) :
    s.GetTopDomains limit
      = some ((sortSlice statsLess s.snapshot).take (min limit.toNat s.domainCounts.length)) := by
  have hlen : (sortSlice statsLess s.snapshot).length = s.domainCounts.length := by
    rw [sortSlice_length]; simp [InMemoryStore.snapshot]
  unfold InMemoryStore.GetTopDomains
  simp only [hlen]
  by_cases h : limit > (s.domainCounts.length : Int)
  · have h1 : ¬ ((s.domainCounts.length : Int) < 0) := by omega
    have h2 : min limit.toNat s.domainCounts.length = s.domainCounts.length := by omega
    simp [h, h1, h2]
  · have h1 : ¬ (limit < 0) := by omega
    have h2 : min limit.toNat s.domainCounts.length = limit.toNat := by omega
    simp [h, h1, h2]

/-! ## Top domains: C11, C12, C13 -/

/-- C11. For every store (a map has no repeated key) and every limit ≥ 0,
`GetTopDomains(limit)` returns a sequence ordered by count descending, ties broken by
ascending domain name: every entry `x` standing before an entry `y`, adjacent or not, has
`x.Count > y.Count`, or `x.Count = y.Count` and `x.Domain < y.Domain`. -/
theorem getTopDomains_ordered (s : InMemoryStore) (limit : Int)
    (hkeys : s.domainCounts.keys.Nodup) (hlimit : 0 ≤ limit) :
    ∃ out, s.GetTopDomains limit = some out ∧
      out.Chain' (fun x y => x.Count > y.Count ∨ (x.Count = y.Count ∧ x.Domain < y.Domain)) ∧
      out.Pairwise
        (fun x y => x.Count > y.Count ∨ (x.Count = y.Count ∧ x.Domain < y.Domain)) := by
  refine ⟨_, GetTopDomains_eq s limit hlimit, ?_⟩
  have hp := sortSlice_pairwise s.snapshot (snapshot_nodup s hkeys)
  have hp2 : ((sortSlice statsLess s.snapshot).take
      (min limit.toNat s.domainCounts.length)).Pairwise
      (fun x y => x.Count > y.Count ∨ (x.Count = y.Count ∧ x.Domain < y.Domain)) :=
    (hp.sublist (List.take_sublist _ _)).imp (fun {a b} h => (statsLess_iff a b).mp h)
  exact ⟨hp2.chain', hp2⟩

theorem getTopDomains_ordered_witness :
    (InMemoryStore.SaveMapping goNetURL
        (InMemoryStore.SaveMapping goNetURL
          (InMemoryStore.SaveMapping goNetURL
            (InMemoryStore.SaveMapping goNetURL NewInMemoryStore "code1" "https://zebra.com")
            "code2" "https://zebra.com")
          "code3" "https://apple.com")
        "code4" "https://apple.com").domainCounts = [("zebra.com", 2), ("apple.com", 2)] ∧
      GoMap.keys [("zebra.com", (2 : Int)), ("apple.com", 2)] = ["zebra.com", "apple.com"] ∧
      InMemoryStore.GetTopDomains
        { idCounter := 0, codeToURL := [], urlToCode := [],
          domainCounts := [("zebra.com", 2), ("apple.com", 2)] } 2
        = some [{ Domain := "apple.com", Count := 2 }, { Domain := "zebra.com", Count := 2 }] ∧
      ∃ out, InMemoryStore.GetTopDomains
          { idCounter := 0, codeToURL := [], urlToCode := [],
            domainCounts := [("zebra.com", 2), ("apple.com", 2)] } 2 = some out ∧
        out.Chain'
          (fun x y => x.Count > y.Count ∨ (x.Count = y.Count ∧ x.Domain < y.Domain)) ∧
        out.Pairwise
          (fun x y => x.Count > y.Count ∨ (x.Count = y.Count ∧ x.Domain < y.Domain)) :=
  ⟨by decide, by decide,
    by
      simp [InMemoryStore.GetTopDomains, sortSlice, InMemoryStore.snapshot, statsLess_eq_list,
        List.insertionSort, List.orderedInsert]
      decide,
    getTopDomains_ordered
      { idCounter := 0, codeToURL := [], urlToCode := [],
        domainCounts := [("zebra.com", 2), ("apple.com", 2)] } 2 (by decide) (by decide)⟩

/-- C12. For every store with `D` distinct domains (a map has no repeated key) and every
limit ≥ 0, `GetTopDomains(limit)` returns exactly the first `min(limit, D)` entries of the
whole domain table sorted by count descending, domain ascending: it has length
`min(limit, D)`, every returned entry is a (domain, count) pair of the table, every entry
of the table left out ranks after every returned one, it is the start of whatever
arrangement of the table is sorted that way, and when `limit ≥ D` all `D` domains are
returned, with no padding. -/
theorem getTopDomains_first_entries (s : InMemoryStore) (limit : Int)
    (hkeys : s.domainCounts.keys.Nodup) (hlimit : 0 ≤ limit) :
    ∃ out, s.GetTopDomains limit = some out ∧
      out.length = min limit.toNat s.domainCounts.length ∧
      (∀ x ∈ out, s.domainCounts.get? x.Domain = some x.Count) ∧
      (∀ d c, s.domainCounts.get? d = some c →
        ({ Domain := d, Count := c } : DomainStats) ∉ out →
        ∀ x ∈ out, statsLess x { Domain := d, Count := c } = true) ∧
      (∀ L : List DomainStats, L.Perm s.snapshot →
        L.Pairwise (fun a b => statsLess a b = true) →
        out = L.take (min limit.toNat s.domainCounts.length)) ∧
      ((s.domainCounts.length : Int) ≤ limit →
        out.Perm s.snapshot ∧ out.length = s.domainCounts.length) := by
  have hnd := snapshot_nodup s hkeys
  have hp := sortSlice_pairwise s.snapshot hnd
  have hlen : (sortSlice statsLess s.snapshot).length = s.domainCounts.length := by
    rw [sortSlice_length]; simp [InMemoryStore.snapshot]
  refine ⟨_, GetTopDomains_eq s limit hlimit, ?_, ?_, ?_, ?_, ?_⟩
  · rw [List.length_take, hlen]
    omega
  · intro x hx
    have h1 := List.mem_of_mem_take hx
    have h2 := (sortSlice_perm s.snapshot).mem_iff.mp h1
    exact (mem_snapshot s hkeys x).mp h2
  · intro d c hdc hout x hx
    have h1 : ({ Domain := d, Count := c } : DomainStats) ∈ s.snapshot :=
      (mem_snapshot s hkeys _).mpr hdc
    have h2 := (sortSlice_perm s.snapshot).mem_iff.mpr h1
    rw [← List.take_append_drop (min limit.toNat s.domainCounts.length)
      (sortSlice statsLess s.snapshot)] at h2
    rcases List.mem_append.mp h2 with h3 | h3
    · exact absurd h3 hout
    · exact List.Sorted.rel_of_mem_take_of_mem_drop hp hx h3
  · intro L hperm hsorted
    rw [sortSlice_unique s.snapshot L hnd hperm hsorted]
  · intro hD
    have hmin : min limit.toNat s.domainCounts.length = s.domainCounts.length := by omega
    rw [hmin, List.take_of_length_le (by rw [hlen])]
    exact ⟨sortSlice_perm s.snapshot, hlen⟩

theorem getTopDomains_first_entries_witness :
    InMemoryStore.GetTopDomains
        { idCounter := 0, codeToURL := [], urlToCode := [],
          domainCounts := [("youtube.com", 3), ("stackoverflow.com", 1), ("wikipedia.org", 2),
            ("udemy.com", 6)] } 3
        = some [{ Domain := "udemy.com", Count := 6 }, { Domain := "youtube.com", Count := 3 },
            { Domain := "wikipedia.org", Count := 2 }] ∧
      ∃ out, InMemoryStore.GetTopDomains
          { idCounter := 0, codeToURL := [], urlToCode := [],
            domainCounts := [("youtube.com", 3), ("stackoverflow.com", 1), ("wikipedia.org", 2),
              ("udemy.com", 6)] } 3 = some out ∧
        out.length = min (3 : Int).toNat 4 :=
  ⟨by
      simp [InMemoryStore.GetTopDomains, sortSlice, InMemoryStore.snapshot, statsLess_eq_list,
        List.insertionSort, List.orderedInsert],
    (getTopDomains_first_entries
      { idCounter := 0, codeToURL := [], urlToCode := [],
        domainCounts := [("youtube.com", 3), ("stackoverflow.com", 1), ("wikipedia.org", 2),
          ("udemy.com", 6)] } 3 (by decide) (by decide)).imp (fun _ h => ⟨h.1, h.2.1⟩)⟩

/-- C13, amended. `GetTopDomains` on a store without domain counts returns an empty
sequence for every limit ≥ 0. -/
theorem getTopDomains_empty (s : InMemoryStore) (limit : Int)
    (hempty : s.domainCounts = []) (hlimit : 0 ≤ limit) : s.GetTopDomains limit = some [] := by
  rw [GetTopDomains_eq s limit hlimit, hempty]
  simp [InMemoryStore.snapshot, sortSlice]

theorem getTopDomains_empty_witness :
    NewInMemoryStore.domainCounts = [] ∧ (0 : Int) ≤ 3 ∧
      NewInMemoryStore.GetTopDomains 3 = some [] :=
  ⟨rfl, by decide, getTopDomains_empty NewInMemoryStore 3 rfl (by decide)⟩

/-- C13 as stated fails for a negative limit: on a fresh store `GetTopDomains(-1)` does
not return the empty sequence, the slice expression `stats[:limit]` panics. -/
theorem getTopDomains_negative_limit :
    NewInMemoryStore.GetTopDomains (-1) = none ∧ NewInMemoryStore.GetTopDomains (-1) ≠ some [] := by
  constructor <;> decide

/-! ## The store: C14, C15, C20 -/

/-- C14. For every store, code and url: after `SaveMapping(code, url)`, `GetURL(code)`
returns `url` and `GetCode(url)` returns `code`, both without error, whatever was stored
before; `GetURL` of every other code and `GetCode` of every other url return what they
returned before the call, and `idCounter` is unchanged. -/
theorem saveMapping_then_get (lib : NetURL) (s : InMemoryStore) (code url : String) :
    (s.SaveMapping lib code url).GetURL code = (url, none) ∧
      (s.SaveMapping lib code url).GetCode url = (code, none) ∧
      (∀ code', code' ≠ code → (s.SaveMapping lib code url).GetURL code' = s.GetURL code') ∧
      (∀ url', url' ≠ url → (s.SaveMapping lib code url).GetCode url' = s.GetCode url') ∧
      (s.SaveMapping lib code url).idCounter = s.idCounter := by
  refine ⟨?_, ?_, ?_, ?_, SaveMapping_idCounter lib s code url⟩
  · simp [InMemoryStore.GetURL, SaveMapping_codeToURL, GoMap.get?_set_self]
  · simp [InMemoryStore.GetCode, SaveMapping_urlToCode, GoMap.get?_set_self]
  · intro code' hne
    simp only [InMemoryStore.GetURL, SaveMapping_codeToURL]
    rw [GoMap.get?_set_ne _ _ _ _ hne]
  · intro url' hne
    simp only [InMemoryStore.GetCode, SaveMapping_urlToCode]
    rw [GoMap.get?_set_ne _ _ _ _ hne]

/-- C15. `GetURL(code)` fails with `ErrNotFound`, returning the empty string, if and only
if `code` is not a key of `codeToURL`, and otherwise returns the stored URL with a nil
error; `GetCode(url)` behaves the same way over `urlToCode`; hence on a fresh store
`Resolve` of every code, `"nonexistent"` among them, fails with `ErrNotFound`. -/
theorem get_not_found_iff (s : InMemoryStore) (code url : String) :
    (s.GetURL code = ("", some Error.ErrNotFound) ↔ code ∉ s.codeToURL.keys) ∧
      ((s.GetURL code).2 = some Error.ErrNotFound ↔ code ∉ s.codeToURL.keys) ∧
      (code ∈ s.codeToURL.keys →
        ∃ u, s.codeToURL.get? code = some u ∧ (code, u) ∈ s.codeToURL ∧
          s.GetURL code = (u, none)) ∧
      (s.GetCode url = ("", some Error.ErrNotFound) ↔ url ∉ s.urlToCode.keys) ∧
      ((s.GetCode url).2 = some Error.ErrNotFound ↔ url ∉ s.urlToCode.keys) ∧
      (url ∈ s.urlToCode.keys →
        ∃ c, s.urlToCode.get? url = some c ∧ (url, c) ∈ s.urlToCode ∧
          s.GetCode url = (c, none)) ∧
      Resolve NewInMemoryStore code = ("", some Error.ErrNotFound) ∧
      Resolve NewInMemoryStore "nonexistent" = ("", some Error.ErrNotFound) := by
  refine ⟨?_, ?_, ?_, ?_, ?_, ?_, rfl, rfl⟩
  · rw [← GoMap.get?_eq_none_iff]
    rcases h : s.codeToURL.get? code with _ | u <;> simp [InMemoryStore.GetURL, h]
  · rw [← GoMap.get?_eq_none_iff]
    rcases h : s.codeToURL.get? code with _ | u <;> simp [InMemoryStore.GetURL, h]
  · intro hmem
    rcases h : s.codeToURL.get? code with _ | u
    · exact absurd hmem ((GoMap.get?_eq_none_iff _ _).mp h)
    · exact ⟨u, rfl, GoMap.mem_of_get? _ _ _ h, by simp [InMemoryStore.GetURL, h]⟩
  · rw [← GoMap.get?_eq_none_iff]
    rcases h : s.urlToCode.get? url with _ | c <;> simp [InMemoryStore.GetCode, h]
  · rw [← GoMap.get?_eq_none_iff]
    rcases h : s.urlToCode.get? url with _ | c <;> simp [InMemoryStore.GetCode, h]
  · intro hmem
    rcases h : s.urlToCode.get? url with _ | c
    · exact absurd hmem ((GoMap.get?_eq_none_iff _ _).mp h)
    · exact ⟨c, rfl, GoMap.mem_of_get? _ _ _ h, by simp [InMemoryStore.GetCode, h]⟩

theorem wrapInt_of_range (x : Int) (h₁ : -2 ^ 63 ≤ x) (h₂ : x < 2 ^ 63) : wrapInt x = x := by
  unfold wrapInt
  norm_num at h₁ h₂ ⊢
  omega

theorem SaveMapping_domainCounts_of_domain (lib : NetURL) (s : InMemoryStore)
    (code url : String) (h : extractDomain lib url ≠ "") :
    (s.SaveMapping lib code url).domainCounts
      = s.domainCounts.set (extractDomain lib url)
          (wrapInt ((s.domainCounts.get? (extractDomain lib url)).getD 0 + 1)) := by
  unfold InMemoryStore.SaveMapping
  simp [h]

theorem SaveMapping_domainCounts_of_empty (lib : NetURL) (s : InMemoryStore)
    (code url : String) (h : extractDomain lib url = "") :
    (s.SaveMapping lib code url).domainCounts = s.domainCounts := by
  unfold InMemoryStore.SaveMapping
  simp [h]

/-- C20, amended. For every store, code and url: if `extractDomain(url)` is a non-empty
domain `d`, `SaveMapping(code, url)` sets `domainCounts[d]` to the `int` after its old
value (0 when absent), unconditionally, that is whether or not code or url were already
stored: the count is raised by exactly 1 when it is an `int` below the largest one,
`2 ^ 63 - 1`, and created at 1 when absent; the count of every other domain is unchanged;
if `extractDomain(url)` is empty the domain table is unchanged. -/
theorem saveMapping_domain_count (lib : NetURL) (s : InMemoryStore) (code url : String) :
    (extractDomain lib url ≠ "" →
        (s.SaveMapping lib code url).domainCounts.get? (extractDomain lib url)
          = some (wrapInt ((s.domainCounts.get? (extractDomain lib url)).getD 0 + 1)) ∧
        (∀ c, s.domainCounts.get? (extractDomain lib url) = some c →
          -2 ^ 63 ≤ c → c < 2 ^ 63 - 1 →
          (s.SaveMapping lib code url).domainCounts.get? (extractDomain lib url)
            = some (c + 1)) ∧
        (s.domainCounts.get? (extractDomain lib url) = none →
          (s.SaveMapping lib code url).domainCounts.get? (extractDomain lib url) = some 1) ∧
        (∀ d', d' ≠ extractDomain lib url →
          (s.SaveMapping lib code url).domainCounts.get? d' = s.domainCounts.get? d')) ∧
      (extractDomain lib url = "" →
        (s.SaveMapping lib code url).domainCounts = s.domainCounts) := by
  refine ⟨?_, SaveMapping_domainCounts_of_empty lib s code url⟩
  intro hd
  rw [SaveMapping_domainCounts_of_domain lib s code url hd]
  refine ⟨GoMap.get?_set_self _ _ _, ?_, ?_, ?_⟩
  · intro c hc h₁ h₂
    rw [GoMap.get?_set_self, hc]
    simp only [Option.getD_some]
    rw [wrapInt_of_range (c + 1) (by omega) (by omega)]
  · intro hc
    rw [GoMap.get?_set_self, hc]
    rfl
  · intro d' hne
    exact GoMap.get?_set_ne _ _ _ _ hne

/-- C20 as stated fails on a store whose count for `example.com` is the largest `int`:
`SaveMapping` does not raise it by 1, the increment wraps around to `-2 ^ 63`. -/
theorem saveMapping_domain_count_wraps :
    extractDomain goNetURL "https://example.com" = "example.com" ∧
      (InMemoryStore.SaveMapping goNetURL
        { idCounter := 0, codeToURL := [], urlToCode := [],
          domainCounts := [("example.com", 2 ^ 63 - 1)] }
        "code1" "https://example.com").domainCounts.get? "example.com" = some (-2 ^ 63) ∧
      (InMemoryStore.SaveMapping goNetURL
        { idCounter := 0, codeToURL := [], urlToCode := [],
          domainCounts := [("example.com", 2 ^ 63 - 1)] }
        "code1" "https://example.com").domainCounts.get? "example.com"
        ≠ some (2 ^ 63 - 1 + 1) := by
  have hd : extractDomain goNetURL "https://example.com" = "example.com" := by decide
  have hne : extractDomain goNetURL "https://example.com" ≠ "" := by rw [hd]; decide
  refine ⟨hd, ?_, ?_⟩
  · rw [SaveMapping_domainCounts_of_domain goNetURL _ _ _ hne, hd, GoMap.get?_set_self]
    simp [GoMap.get?, wrapInt]
  · rw [SaveMapping_domainCounts_of_domain goNetURL _ _ _ hne, hd, GoMap.get?_set_self]
    simp [GoMap.get?, wrapInt]

/-! ## URL validation: C16, C17 -/

/-- C16. URL validation classifies the tested inputs as the tests state, on the model of
`net/url`: `isValidURL` is false, and `Shorten` fails with `ErrInvalidURL` on every store,
for `"not-a-url"`, `"ftp://example.com"`, `"file:///path/to/file"`, `"http://"`,
`"https://"`, `""` and `"://example.com"`; `isValidURL` is true for the seven URLs of the
valid list. -/
theorem isValidURL_tested_inputs :
    (∀ u ∈ ["not-a-url", "ftp://example.com", "file:///path/to/file", "http://", "https://",
          "", "://example.com"],
        isValidURL goNetURL u = false ∧
          ∀ s : InMemoryStore, (Shorten goNetURL s u).1 = ("", some Error.ErrInvalidURL)) ∧
      (∀ u ∈ ["https://example.com", "http://example.com", "https://example.com/path",
          "https://example.com/path?param=value", "https://example.com/path#fragment",
          "http://localhost:8080", "https://subdomain.example.com"],
        isValidURL goNetURL u = true) := by
  have hinv : ∀ u ∈ ["not-a-url", "ftp://example.com", "file:///path/to/file", "http://",
      "https://", "", "://example.com"], isValidURL goNetURL u = false := by decide
  refine ⟨?_, by decide⟩
  intro u hu
  refine ⟨hinv u hu, fun s => ?_⟩
  rw [Shorten_invalid goNetURL s u (hinv u hu)]

/-- The scheme of a URL that `parse` accepts is the scheme `getScheme` reads, in lower
case. -/
theorem GoURL.parse_scheme (l : List Char) (v : Bool) (sch host : List Char)
    (h : GoURL.parse l v = some (sch, host)) :
    ∃ scheme rest, GoURL.getScheme l = some (scheme, rest) ∧
      sch = scheme.map Char.toLower := by
  unfold GoURL.parse at h
  split at h
  · cases h
  · split at h
    · cases h
    · split at h
      · rename_i hstar
        subst hstar
        simp only [Option.some.injEq, Prod.mk.injEq] at h
        exact ⟨[], ['*'], by decide, by rw [← h.1]; rfl⟩
      · split at h
        · cases h
        · rename_i scheme rest hgs
          refine ⟨scheme, rest, hgs, ?_⟩
          simp only at h
          generalize (if ("?".toList.isSuffixOf rest && decide (List.count '?' rest = 1)) = true
            then List.take (rest.length - 1) rest else (GoURL.cut '?' rest).1) = R at h
          by_cases c1 : (decide ¬"/".toList.isPrefixOf R = true
              && decide (List.map Char.toLower scheme ≠ [])) = true
          · rw [if_pos c1] at h
            cases h
            rfl
          · rw [if_neg c1] at h
            by_cases c2 : (decide ¬"/".toList.isPrefixOf R = true && v) = true
            · rw [if_pos c2] at h
              cases h
            · rw [if_neg c2] at h
              by_cases c3 : (decide ¬"/".toList.isPrefixOf R = true
                  && (GoURL.cut '/' R).1.contains ':') = true
              · rw [if_pos c3] at h
                cases h
              · rw [if_neg c3] at h
                by_cases c4 : ((decide (List.map Char.toLower scheme ≠ [])
                    || !v && !"///".toList.isPrefixOf R) && "//".toList.isPrefixOf R) = true
                · rw [if_pos c4] at h
                  rcases hpa : GoURL.parseAuthority (GoURL.cut '/' (List.drop 2 R)).1 with _ | hst
                  · rw [hpa] at h
                    cases h
                  · rw [hpa] at h
                    simp only [Option.map_eq_some'] at h
                    obtain ⟨_, _, h2⟩ := h
                    cases h2
                    rfl
                · rw [if_neg c4] at h
                  simp only [Option.map_eq_some'] at h
                  obtain ⟨_, _, h2⟩ := h
                  cases h2
                  rfl

theorem isValidURL_scheme (u : String) (h : isValidURL goNetURL u = true) :
    GoURL.writtenSchemeLower u = some "http" ∨ GoURL.writtenSchemeLower u = some "https" := by
  unfold isValidURL at h
  simp only [goNetURL, GoURL.ParseRequestURI] at h
  rcases hp : GoURL.parse u.toList true with _ | ⟨sch, host⟩
  · rw [hp] at h; simp at h
  · obtain ⟨scheme, rest, hgs, hsch⟩ := GoURL.parse_scheme _ _ _ _ hp
    rw [hp] at h
    simp only [Option.map_some', GoURL.toURL] at h
    have hw : GoURL.writtenSchemeLower u = some (String.mk sch) := by
      unfold GoURL.writtenSchemeLower
      rw [hgs, hsch]
      rfl
    rw [hw]
    by_cases h1 : String.mk sch = "http"
    · exact Or.inl (by rw [h1])
    · by_cases h2 : String.mk sch = "https"
      · exact Or.inr (by rw [h2])
      · simp [h1, h2] at h

/-- C17, amended. `Shorten` accepts a URL only if its scheme, as written in the input and
put in lower case, is exactly `"http"` or `"https"`: for every input whose written scheme
differs from both in more than the case of its letters, `Shorten` fails with
`ErrInvalidURL`. -/
theorem shorten_rejects_other_schemes (s : InMemoryStore) (u : String)
    (hhttp : GoURL.writtenSchemeLower u ≠ some "http")
    (hhttps : GoURL.writtenSchemeLower u ≠ some "https") :
    isValidURL goNetURL u = false ∧
      (Shorten goNetURL s u).1 = ("", some Error.ErrInvalidURL) := by
  have hv : isValidURL goNetURL u = false := by
    by_contra hc
    rcases isValidURL_scheme u (by simpa using hc) with h | h
    · exact hhttp h
    · exact hhttps h
  exact ⟨hv, by rw [Shorten_invalid goNetURL s u hv]⟩

theorem shorten_rejects_other_schemes_witness :
    GoURL.writtenSchemeLower "Ftp://example.com" ≠ some "http" ∧
      GoURL.writtenSchemeLower "Ftp://example.com" ≠ some "https" ∧
      isValidURL goNetURL "Ftp://example.com" = false ∧
      (Shorten goNetURL NewInMemoryStore "Ftp://example.com").1
        = ("", some Error.ErrInvalidURL) :=
  ⟨by decide, by decide,
    shorten_rejects_other_schemes NewInMemoryStore "Ftp://example.com" (by decide) (by decide)⟩

/-- C17 as stated fails: `"HTTP://example.com"` and `"Https://example.com"`, whose written
schemes differ from `"http"` and `"https"` in letter case, are accepted, `net/url` putting
the scheme it parses in lower case; on a fresh store `Shorten("HTTP://example.com")`
returns the code `"1"`. -/
theorem shorten_accepts_upper_case_scheme :
    isValidURL goNetURL "HTTP://example.com" = true ∧
      isValidURL goNetURL "Https://example.com" = true ∧
      (Shorten goNetURL NewInMemoryStore "HTTP://example.com").1 = ("1", none) ∧
      (Shorten goNetURL NewInMemoryStore "HTTP://example.com").1
        ≠ ("", some Error.ErrInvalidURL) := by
  have h1 : isValidURL goNetURL "HTTP://example.com" = true := by decide
  have h2 := (first_code goNetURL "HTTP://example.com" [] h1).1
  refine ⟨h1, by decide, h2, ?_⟩
  rw [h2]
  decide

/-! ## The encoder: C18, C19 -/

theorem Base62Encode_length_pos (id : Nat) (h : 0 < id) :
    (Base62Encode id).length = Nat.log 62 id + 1 := by
  rw [Base62Encode_pos id h]
  simp only [String.length, List.length_reverse, List.length_map]
  exact Nat.digits_len 62 id (by decide) (Nat.pos_iff_ne_zero.mp h)

/-- C18. The length of `Base62Encode(id)` grows logarithmically in base 62:
`Base62Encode(0)` has length 1, and for every `id > 0` the length is the unique `k ≥ 1`
with `62 ^ (k - 1) ≤ id < 62 ^ k`; every unsigned 64-bit input yields a code of at most 11
characters. -/
theorem Base62Encode_length :
    (Base62Encode 0).length = 1 ∧
      (∀ id, 0 < id → 1 ≤ (Base62Encode id).length ∧
        62 ^ ((Base62Encode id).length - 1) ≤ id ∧ id < 62 ^ (Base62Encode id).length) ∧
      (∀ id k, 0 < id → 1 ≤ k → 62 ^ (k - 1) ≤ id → id < 62 ^ k →
        (Base62Encode id).length = k) ∧
      (∀ id, id < 2 ^ 64 → (Base62Encode id).length ≤ 11) := by
  refine ⟨by decide, ?_, ?_, ?_⟩
  · intro id h
    rw [Base62Encode_length_pos id h]
    refine ⟨by omega, ?_, Nat.lt_pow_succ_log_self (by decide) id⟩
    simp only [Nat.add_sub_cancel]
    exact Nat.pow_log_le_self 62 (Nat.pos_iff_ne_zero.mp h)
  · intro id k h hk hlo hhi
    rw [Base62Encode_length_pos id h]
    have hlog : Nat.log 62 id = k - 1 := by
      apply Nat.log_eq_of_pow_le_of_lt_pow hlo
      have : k - 1 + 1 = k := by omega
      rw [this]
      exact hhi
    omega
  · intro id h
    rcases Nat.eq_zero_or_pos id with h0 | h0
    · subst h0; decide
    · rw [Base62Encode_length_pos id h0]
      have hlt : id < 62 ^ 11 := lt_trans h (by norm_num)
      have := Nat.log_lt_of_lt_pow (Nat.pos_iff_ne_zero.mp h0) hlt
      omega

theorem symbolOf_mem (d : Nat) (h : d < 62) : symbolOf d ∈ alphabet.toList := by
  unfold symbolOf
  rw [List.getD_eq_getElem _ _ (by rw [alphabet_length]; exact h)]
  exact List.getElem_mem _

/-- C19. `Base62Encode` is total with no error case: the alphabet has exactly 62 pairwise
distinct symbols in the order `'0'`-`'9'`, `'a'`-`'z'`, `'A'`-`'Z'` (index 0 = `'0'`,
9 = `'9'`, 10 = `'a'`, 35 = `'z'`, 36 = `'A'`, 61 = `'Z'`), the index `num % 62` used to
read it is always in bounds, and for every identifier, the unsigned 64-bit ones among
them, the output is a non-empty string made only of alphabet symbols. -/
theorem Base62Encode_total :
    alphabet.toList.length = 62 ∧ alphabet.toList.Nodup ∧
      alphabet = "0123456789" ++ "abcdefghijklmnopqrstuvwxyz" ++ "ABCDEFGHIJKLMNOPQRSTUVWXYZ" ∧
      alphabetAt ⟨0, by decide⟩ = '0' ∧ alphabetAt ⟨9, by decide⟩ = '9' ∧
      alphabetAt ⟨10, by decide⟩ = 'a' ∧ alphabetAt ⟨35, by decide⟩ = 'z' ∧
      alphabetAt ⟨36, by decide⟩ = 'A' ∧ alphabetAt ⟨61, by decide⟩ = 'Z' ∧
      (∀ num : Nat, num % 62 < alphabet.toList.length) ∧
      (∀ id : Nat, (Base62Encode id).toList ≠ [] ∧
        ∀ c ∈ (Base62Encode id).toList, c ∈ alphabet.toList) := by
  refine ⟨alphabet_length, alphabet_nodup, by decide, by decide, by decide, by decide,
    by decide, by decide, by decide, ?_, ?_⟩
  · intro num
    rw [alphabet_length]
    exact Nat.mod_lt _ (by decide)
  · intro id
    rcases Nat.eq_zero_or_pos id with h0 | h0
    · subst h0
      rw [Base62Encode_zero]
      decide
    · rw [Base62Encode_pos id h0]
      refine ⟨?_, ?_⟩
      · simp only [String.toList, ne_eq, List.reverse_eq_nil_iff, List.map_eq_nil_iff]
        exact Nat.digits_ne_nil_iff_ne_zero.mpr (Nat.pos_iff_ne_zero.mp h0)
      · intro c hc
        simp only [String.toList, List.mem_reverse, List.mem_map] at hc
        obtain ⟨d, hd, rfl⟩ := hc
        exact symbolOf_mem d (Nat.digits_lt_base (by decide) hd)

/-! ## The encoder: C25, C27 -/

/-- C25. `Base62Encode` produces the base-62 digits of `id` most-significant first: for
every `id < 62` the result is the single symbol `alphabet[id]`, and for every `id ≥ 62`,
`Base62Encode(id)` is `Base62Encode(id / 62)` followed by the symbol `alphabet[id mod 62]`. -/
theorem Base62Encode_digits :
    (∀ (id : Nat) (h : id < 62), Base62Encode id = String.mk [alphabetAt ⟨id, h⟩]) ∧
      (∀ id : Nat, 62 ≤ id →
        Base62Encode id
          = Base62Encode (id / 62)
            ++ String.mk [alphabetAt ⟨id % 62, Nat.mod_lt _ (by decide)⟩]) := by
  refine ⟨?_, ?_⟩
  · intro id h
    rcases Nat.eq_zero_or_pos id with h0 | h0
    · subst h0; rfl
    · exact Base62Encode_small id h0 h
  · intro id h
    have hpos : 0 < id := by omega
    have hdiv : 0 < id / 62 := Nat.div_pos h (by decide)
    rw [Base62Encode_pos id hpos, Base62Encode_pos (id / 62) hdiv,
      Nat.digits_def' (by decide) hpos, alphabetAt_eq_symbolOf]
    simp only [List.map_cons, List.reverse_cons]
    rfl

theorem symbolValue_symbolOf (d : Nat) (h : d < 62) : symbolValue (symbolOf d) = d := by
  unfold symbolValue symbolOf
  rw [List.getD_eq_getElem _ _ (by rw [alphabet_length]; exact h)]
  exact List.indexOf_getElem alphabet_nodup d (by rw [alphabet_length]; exact h)

theorem foldl_digits (l : List Nat) (h : ∀ d ∈ l, d < 62) :
    (l.map symbolOf).reverse.foldl (fun acc c => acc * 62 + symbolValue c) 0
      = Nat.ofDigits 62 l := by
  induction l with
  | nil => rfl
  | cons d rest ih =>
    have hd := h d (by simp)
    have hrest := ih (fun x hx => h x (by simp [hx]))
    simp only [List.map_cons, List.reverse_cons, List.foldl_append, List.foldl_cons,
      List.foldl_nil, hrest, symbolValue_symbolOf d hd, Nat.ofDigits_cons]
    ring

theorem base62Value_Base62Encode (id : Nat) : base62Value (Base62Encode id) = id := by
  rcases Nat.eq_zero_or_pos id with h0 | h0
  · subst h0; decide
  · rw [Base62Encode_pos id h0]
    unfold base62Value
    simp only [String.toList]
    rw [foldl_digits _ (fun d hd => Nat.digits_lt_base (by decide) hd), Nat.ofDigits_digits]

/-- C27. `Base62Encode` has a left inverse: reading the output as a base-62 numeral,
most-significant digit first, each symbol valued by its index in the alphabet, yields the
input, for every identifier and so for every unsigned 64-bit one; and for every `id > 0`
the first symbol of the output is not `'0'`. -/
theorem Base62Encode_left_inverse :
    (∀ id : Nat, base62Value (Base62Encode id) = id) ∧
      (∀ id : Nat, id < 2 ^ 64 → base62Value (Base62Encode id) = id) ∧
      (∀ id : Nat, 0 < id → (Base62Encode id).toList.head? ≠ some '0') := by
  refine ⟨base62Value_Base62Encode, fun id _ => base62Value_Base62Encode id, ?_⟩
  intro id h0 hc
  have hne := Nat.pos_iff_ne_zero.mp h0
  rw [Base62Encode_pos id h0] at hc
  simp only [String.toList, List.head?_reverse, List.getLast?_map, Option.map_eq_some'] at hc
  obtain ⟨d, hd, hd0⟩ := hc
  have hnil : Nat.digits 62 id ≠ [] := Nat.digits_ne_nil_iff_ne_zero.mpr hne
  rw [List.getLast?_eq_getLast _ hnil] at hd
  have hd' : (Nat.digits 62 id).getLast hnil = d := Option.some.inj hd
  have hmem : d ∈ Nat.digits 62 id := by rw [← hd']; exact List.getLast_mem hnil
  have hlt : d < 62 := Nat.digits_lt_base (by decide) hmem
  have hzero : d = 0 := symbolOf_inj hlt (by decide) (by rw [hd0]; decide)
  have hlast := Nat.getLast_digit_ne_zero 62 hne
  exact hlast (hd'.trans hzero)

/-! ## The store below the service: C30 -/

/-- C30. At the store level `SaveMapping` does not itself preserve the code/URL bijection:
after `SaveMapping(c, u1)` then `SaveMapping(c, u2)` on a fresh store with `u1 ≠ u2`,
`GetCode(u1)` still returns `c` while `GetURL(c)` returns `u2`. -/
theorem saveMapping_breaks_bijection (lib : NetURL) (c u1 u2 : String) (hne : u1 ≠ u2) :
    ((NewInMemoryStore.SaveMapping lib c u1).SaveMapping lib c u2).GetCode u1 = (c, none) ∧
      ((NewInMemoryStore.SaveMapping lib c u1).SaveMapping lib c u2).GetURL c = (u2, none) ∧
      (((NewInMemoryStore.SaveMapping lib c u1).SaveMapping lib c u2).GetURL c).1 ≠ u1 := by
  have h1 : ((NewInMemoryStore.SaveMapping lib c u1).SaveMapping lib c u2).GetURL c
      = (u2, none) := by
    simp [InMemoryStore.GetURL, SaveMapping_codeToURL, GoMap.get?_set_self]
  refine ⟨?_, h1, ?_⟩
  · simp only [InMemoryStore.GetCode, SaveMapping_urlToCode]
    rw [GoMap.get?_set_ne _ _ _ _ hne, GoMap.get?_set_self]
  · rw [h1]
    exact fun h => hne h.symm

theorem saveMapping_breaks_bijection_witness :
    "https://example.com/1" ≠ "https://example.com/2" ∧
      ((NewInMemoryStore.SaveMapping goNetURL "abc" "https://example.com/1").SaveMapping
          goNetURL "abc" "https://example.com/2").GetCode "https://example.com/1"
        = ("abc", none) ∧
      ((NewInMemoryStore.SaveMapping goNetURL "abc" "https://example.com/1").SaveMapping
          goNetURL "abc" "https://example.com/2").GetURL "abc"
        = ("https://example.com/2", none) :=
  ⟨by decide,
    (saveMapping_breaks_bijection goNetURL "abc" "https://example.com/1"
      "https://example.com/2" (by decide)).1,
    (saveMapping_breaks_bijection goNetURL "abc" "https://example.com/1"
      "https://example.com/2" (by decide)).2.1⟩

/-! ## Domain extraction: C22 -/

/-- C22. `extractDomain` returns the host of the URL, subdomain included, without scheme,
port, path and query, and the empty string when there is no host, on the model of
`net/url`: `"https://example.com"`, `"https://example.com/path"`,
`"https://example.com?param=value"` and `"https://example.com:8080"` give `"example.com"`;
`"https://sub.example.com"` gives `"sub.example.com"`; `"https://www.example.com"` gives
`"www.example.com"`; `"not-a-url"` and `""` give `""`. For every behaviour of `net/url`
the result is the `Hostname` of the parsed URL, and `""` when parsing fails. -/
theorem extractDomain_tested_inputs :
    (∀ (lib : NetURL) (u : String) (p : URL), lib.Parse u = some p →
        extractDomain lib u = lib.Hostname p) ∧
      (∀ (lib : NetURL) (u : String), lib.Parse u = none → extractDomain lib u = "") ∧
      extractDomain goNetURL "https://example.com" = "example.com" ∧
      extractDomain goNetURL "https://example.com/path" = "example.com" ∧
      extractDomain goNetURL "https://example.com?param=value" = "example.com" ∧
      extractDomain goNetURL "https://example.com:8080" = "example.com" ∧
      extractDomain goNetURL "https://sub.example.com" = "sub.example.com" ∧
      extractDomain goNetURL "https://www.example.com" = "www.example.com" ∧
      extractDomain goNetURL "not-a-url" = "" ∧
      extractDomain goNetURL "" = "" := by
  refine ⟨?_, ?_, ?_, ?_, ?_, ?_, ?_, ?_, ?_, ?_⟩
  · intro lib u p h
    simp [extractDomain, h]
  · intro lib u h
    simp [extractDomain, h]
  all_goals decide

/-! ## The resolve handler: C23 -/

theorem handleResolve_found (s : InMemoryStore) (code longURL : String)
    (hcode : code ≠ "") (hres : Resolve s code = (longURL, none)) :
    handleResolve s ("/" ++ code) = some { Code := 301, RedirectURL := some longURL } := by
  have hdata : ("/" ++ code).data = '/' :: code.data := by simp
  have h1 : "/" ++ code ≠ "/" := by
    intro h
    have := congrArg String.data h
    rw [hdata] at this
    simp only [List.cons.injEq, true_and] at this
    exact hcode (String.ext this)
  have h2 : "/" ++ code ≠ "" := by
    intro h
    have := congrArg String.data h
    rw [hdata] at this
    simp at this
  have h3 : ("/" ++ code).drop 1 = code := by
    apply String.ext
    simp [String.drop_eq, hdata]
  unfold handleResolve
  simp only [h1, h2, if_false, h3, hres]

/-- C23, the code at a resolved code: for every non-empty code that the shortener resolves
to a URL, `handleResolve` on the path `"/" + code` redirects to that URL with status 301
(Moved Permanently), which is not `http.StatusFound`, the status 302 that the tests of
the handler expect. For the store of `TestServer_HandleResolve_ValidCode` and the path
`"/1"` the response is a redirect to `"https://example.com/resolve"` with status 301. -/
theorem handleResolve_status :
    (∀ (s : InMemoryStore) (code longURL : String), code ≠ "" →
        Resolve s code = (longURL, none) →
        handleResolve s ("/" ++ code) = some { Code := 301, RedirectURL := some longURL } ∧
          handleResolve s ("/" ++ code)
            ≠ some { Code := StatusFound, RedirectURL := some longURL }) ∧
      (Shorten goNetURL NewInMemoryStore "https://example.com/resolve").1 = ("1", none) ∧
      handleResolve (Shorten goNetURL NewInMemoryStore "https://example.com/resolve").2 "/1"
        = some { Code := 301, RedirectURL := some "https://example.com/resolve" } := by
  have hv : isValidURL goNetURL "https://example.com/resolve" = true := by decide
  have hfirst := first_code goNetURL "https://example.com/resolve" [] hv
  refine ⟨?_, hfirst.1, ?_⟩
  · intro s code longURL hcode hres
    rw [handleResolve_found s code longURL hcode hres]
    refine ⟨rfl, fun h => ?_⟩
    have hcode := congrArg (fun r => r.map Response.Code) h
    simp [StatusFound] at hcode
  · have hres : Resolve (Shorten goNetURL NewInMemoryStore "https://example.com/resolve").2 "1"
        = ("https://example.com/resolve", none) := by
      have hnew : NewInMemoryStore.urlToCode.get? "https://example.com/resolve" = none := rfl
      rw [Shorten_new goNetURL NewInMemoryStore _ hv hnew]
      have hid : NewInMemoryStore.idCounter = 0 := rfl
      rw [hid, Base62Encode_first]
      simp [Resolve, InMemoryStore.GetURL, SaveMapping_codeToURL, GoMap.get?_set_self]
    exact handleResolve_found _ "1" _ (by decide) hres

/-! ## Determinism of the top domains: C28 -/

theorem snapshot_perm (s₁ s₂ : InMemoryStore) (h : s₂.domainCounts.Perm s₁.domainCounts) :
    s₂.snapshot.Perm s₁.snapshot :=
  List.Perm.map _ h

theorem snapshot_map_Domain (s : InMemoryStore) :
    s.snapshot.map DomainStats.Domain = s.domainCounts.keys := by
  unfold InMemoryStore.snapshot GoMap.keys
  rw [List.map_map]
  rfl

/-- A slice without repeated elements that holds no element `statsLess` than one before it
is strictly ordered. -/
theorem strict_of_sorted (L : List DomainStats) (hnd : L.Nodup)
    (hsorted : L.Pairwise (fun a b => statsLess b a = false)) :
    L.Pairwise (fun a b => statsLess a b = true) :=
  (List.Pairwise.and hsorted hnd).imp (fun {a b} h => statsLess_total a b h.2 h.1)

/-- C28. `GetTopDomains` is deterministic in the domain table: for every store (a map has
no repeated key) and limit ≥ 0 the returned sequence is the same whatever order the map
iteration yields the domains in, and whatever slice the sort returns among those that
hold the same entries with none less than one before it; the comparison (count
descending, then domain ascending) orders any two different entries of the table one way
or the other, and no domain appears twice in the result. -/
theorem getTopDomains_deterministic (s₁ s₂ : InMemoryStore) (limit : Int)
    (hkeys : s₁.domainCounts.keys.Nodup) (hperm : s₂.domainCounts.Perm s₁.domainCounts)
    (hlimit : 0 ≤ limit) :
    s₂.GetTopDomains limit = s₁.GetTopDomains limit ∧
      (∀ L : List DomainStats, L.Perm s₂.snapshot →
        L.Pairwise (fun a b => statsLess b a = false) →
        some (L.take (min limit.toNat s₂.domainCounts.length)) = s₁.GetTopDomains limit) ∧
      (∀ x ∈ s₁.snapshot, ∀ y ∈ s₁.snapshot, x ≠ y →
        (statsLess x y = true ∧ statsLess y x = false) ∨
          (statsLess y x = true ∧ statsLess x y = false)) ∧
      (∃ out, s₁.GetTopDomains limit = some out ∧ (out.map DomainStats.Domain).Nodup) := by
  have hnd₁ := snapshot_nodup s₁ hkeys
  have hsp := snapshot_perm s₁ s₂ hperm
  have hlen : s₂.domainCounts.length = s₁.domainCounts.length := hperm.length_eq
  have hany : ∀ L : List DomainStats, L.Perm s₂.snapshot →
      L.Pairwise (fun a b => statsLess b a = false) → sortSlice statsLess s₁.snapshot = L := by
    intro L hL hsorted
    have hLp : L.Perm s₁.snapshot := hL.trans hsp
    exact sortSlice_unique s₁.snapshot L hnd₁ hLp
      (strict_of_sorted L (hLp.nodup_iff.mpr hnd₁) hsorted)
  refine ⟨?_, ?_, ?_, ?_⟩
  · rw [GetTopDomains_eq s₂ limit hlimit, GetTopDomains_eq s₁ limit hlimit, hlen]
    have hnd₂ : s₂.snapshot.Nodup := hsp.nodup_iff.mpr hnd₁
    rw [sortSlice_unique s₁.snapshot (sortSlice statsLess s₂.snapshot) hnd₁
      ((sortSlice_perm s₂.snapshot).trans hsp) (sortSlice_pairwise s₂.snapshot hnd₂)]
  · intro L hL hsorted
    rw [GetTopDomains_eq s₁ limit hlimit, hany L hL hsorted, hlen]
  · intro x _ y _ hne
    by_cases h : statsLess y x = true
    · exact Or.inr ⟨h, statsLess_asymm y x h⟩
    · have h' : statsLess y x = false := by simpa using h
      exact Or.inl ⟨statsLess_total x y hne h', h'⟩
  · refine ⟨_, GetTopDomains_eq s₁ limit hlimit, ?_⟩
    have hsub : List.Sublist
        (((sortSlice statsLess s₁.snapshot).take
          (min limit.toNat s₁.domainCounts.length)).map DomainStats.Domain)
        ((sortSlice statsLess s₁.snapshot).map DomainStats.Domain) :=
      (List.take_sublist _ _).map _
    have hp : ((sortSlice statsLess s₁.snapshot).map DomainStats.Domain).Perm
        s₁.domainCounts.keys := by
      rw [← snapshot_map_Domain]
      exact (sortSlice_perm s₁.snapshot).map _
    exact (hp.nodup_iff.mpr hkeys).sublist hsub

theorem getTopDomains_deterministic_witness :
    InMemoryStore.GetTopDomains
        { idCounter := 0, codeToURL := [], urlToCode := [],
          domainCounts := [("apple.com", 2), ("zebra.com", 2), ("udemy.com", 6)] } 2
      = InMemoryStore.GetTopDomains
        { idCounter := 0, codeToURL := [], urlToCode := [],
          domainCounts := [("zebra.com", 2), ("udemy.com", 6), ("apple.com", 2)] } 2 :=
  (getTopDomains_deterministic
    { idCounter := 0, codeToURL := [], urlToCode := [],
      domainCounts := [("zebra.com", 2), ("udemy.com", 6), ("apple.com", 2)] }
    { idCounter := 0, codeToURL := [], urlToCode := [],
      domainCounts := [("apple.com", 2), ("zebra.com", 2), ("udemy.com", 6)] } 2
    (by decide) (by decide) (by decide)).1

/-! ## The domain table of the stores written through `Shorten` -/

theorem wrapInt_succ (a : Int) : wrapInt (wrapInt a + 1) = wrapInt (a + 1) := by
  unfold wrapInt
  norm_num
  omega

theorem wrapInt_zero : wrapInt 0 = 0 := by
  unfold wrapInt
  norm_num

/-- One more URL of a domain: the count read as 0 when absent, incremented and stored. -/
theorem count_step (n : Nat) :
    some (wrapInt ((if n = 0 then none else some (wrapInt (n : Int))).getD 0 + 1))
      = (if n + 1 = 0 then none else some (wrapInt ((n + 1 : Nat) : Int))) := by
  have h : (if n = 0 then (none : Option Int) else some (wrapInt (n : Int))).getD 0
      = wrapInt (n : Int) := by
    by_cases h0 : n = 0
    · subst h0
      rw [if_pos rfl, Nat.cast_zero, wrapInt_zero, Option.getD_none]
    · rw [if_neg h0, Option.getD_some]
  rw [h, wrapInt_succ, if_neg (Nat.succ_ne_zero n), Nat.cast_succ]

theorem Shorten_new_keys (lib : NetURL) (s : InMemoryStore) (v : String)
    (hv : isValidURL lib v = true) (hg : s.urlToCode.get? v = none) :
    (Shorten lib s v).2.urlToCode.keys = s.urlToCode.keys ++ [v] := by
  rw [Shorten_new lib s v hv hg, SaveMapping_urlToCode, GoMap.keys_set]
  rw [if_neg ((GoMap.get?_eq_none_iff _ _).mp hg)]

theorem Shorten_new_domainCounts (lib : NetURL) (s : InMemoryStore) (v : String)
    (hv : isValidURL lib v = true) (hg : s.urlToCode.get? v = none) :
    (Shorten lib s v).2.domainCounts
      = if extractDomain lib v = "" then s.domainCounts
        else s.domainCounts.set (extractDomain lib v)
          (wrapInt ((s.domainCounts.get? (extractDomain lib v)).getD 0 + 1)) := by
  rw [Shorten_new lib s v hv hg]
  by_cases hd : extractDomain lib v = ""
  · rw [if_pos hd, SaveMapping_domainCounts_of_empty lib _ _ _ hd]
  · rw [if_neg hd, SaveMapping_domainCounts_of_domain lib _ _ _ hd]

theorem DomainInv_new (lib : NetURL) : DomainInv lib NewInMemoryStore := by
  intro d _
  simp [NewInMemoryStore, GoMap.get?, GoMap.keys]

theorem DomainInv_Shorten (lib : NetURL) (s : InMemoryStore) (v : String)
    (hs : DomainInv lib s) : DomainInv lib (Shorten lib s v).2 := by
  by_cases hv : isValidURL lib v = true
  · rcases hg : s.urlToCode.get? v with _ | c'
    · intro d hd
      rw [Shorten_new_keys lib s v hv hg, Shorten_new_domainCounts lib s v hv hg,
        List.filter_append, List.length_append]
      have hsd := hs d hd
      by_cases hdv : extractDomain lib v = d
      · have hne : extractDomain lib v ≠ "" := by rw [hdv]; exact hd
        rw [if_neg hne, hdv, GoMap.get?_set_self, hsd]
        have hone : (List.filter (fun u => decide (extractDomain lib u = d)) [v]).length = 1 := by
          simp [List.filter, hdv]
        rw [hone]
        exact count_step _
      · have hzero : (List.filter (fun u => decide (extractDomain lib u = d)) [v]).length = 0 := by
          simp [List.filter, hdv]
        rw [hzero, Nat.add_zero, ← hsd]
        by_cases hne : extractDomain lib v = ""
        · rw [if_pos hne]
        · rw [if_neg hne, GoMap.get?_set_ne _ _ _ _ (fun e => hdv e.symm)]
    · rw [Shorten_existing lib s v c' hv hg]; exact hs
  · rw [Shorten_invalid lib s v (by simpa using hv)]; exact hs

theorem DomainInv_shortenAll (lib : NetURL) (urls : List String) :
    ∀ s : InMemoryStore, DomainInv lib s → DomainInv lib (shortenAll lib s urls) := by
  induction urls with
  | nil => intro s h; exact h
  | cons v rest ih => intro s h; exact ih _ (DomainInv_Shorten lib s v h)

theorem Shorten_urlToCode_nodup (lib : NetURL) (s : InMemoryStore) (v : String)
    (hnd : s.urlToCode.keys.Nodup) : (Shorten lib s v).2.urlToCode.keys.Nodup := by
  by_cases hv : isValidURL lib v = true
  · rcases hg : s.urlToCode.get? v with _ | c'
    · rw [Shorten_new lib s v hv hg, SaveMapping_urlToCode]
      exact GoMap.nodup_set _ _ _ hnd
    · rw [Shorten_existing lib s v c' hv hg]; exact hnd
  · rw [Shorten_invalid lib s v (by simpa using hv)]; exact hnd

theorem shortenAll_urlToCode_nodup (lib : NetURL) (urls : List String) :
    ∀ s : InMemoryStore, s.urlToCode.keys.Nodup →
      (shortenAll lib s urls).urlToCode.keys.Nodup := by
  induction urls with
  | nil => intro s h; exact h
  | cons v rest ih => intro s h; exact ih _ (Shorten_urlToCode_nodup lib s v h)

/-- The keys of `urlToCode` are the distinct accepted URLs of the sequence. -/
theorem reachable_keys_perm (lib : NetURL) (urls : List String) :
    (shortenAll lib NewInMemoryStore urls).urlToCode.keys.Perm (accepted lib urls) := by
  have hnd := shortenAll_urlToCode_nodup lib urls NewInMemoryStore (by decide)
  have hnd' : (accepted lib urls).Nodup := List.nodup_dedup _
  rw [List.perm_ext_iff_of_nodup hnd hnd']
  intro u
  rw [← (shortenAll_keys lib urls).1 u]
  constructor
  · intro h
    rcases hq : (shortenAll lib NewInMemoryStore urls).urlToCode.get? u with _ | c
    · exact absurd h ((GoMap.get?_eq_none_iff _ _).mp hq)
    · exact ⟨c, rfl⟩
  · rintro ⟨c, hc⟩
    by_contra hmem
    rw [(GoMap.get?_eq_none_iff _ _).mpr hmem] at hc
    cases hc

theorem reachable_domainCounts (lib : NetURL) (urls : List String) (d : String)
    (hd : d ≠ "") :
    (shortenAll lib NewInMemoryStore urls).domainCounts.get? d
      = if domainOccurrences lib urls d = 0 then none
        else some (wrapInt (domainOccurrences lib urls d : Int)) := by
  have h := DomainInv_shortenAll lib urls _ (DomainInv_new lib) d hd
  have hlen : ((shortenAll lib NewInMemoryStore urls).urlToCode.keys.filter
      (fun u => extractDomain lib u = d)).length = domainOccurrences lib urls d :=
    ((reachable_keys_perm lib urls).filter _).length_eq
  rw [hlen] at h
  exact h

/-! ## Domain counts of the stores reached by `Shorten`: C21 -/

theorem domainOccurrences_pos_iff (lib : NetURL) (urls : List String) (d : String) :
    domainOccurrences lib urls d ≠ 0 ↔ ∃ u ∈ accepted lib urls, extractDomain lib u = d := by
  unfold domainOccurrences
  rw [Nat.ne_zero_iff_zero_lt, List.length_pos_iff_exists_mem]
  constructor
  · rintro ⟨u, hu⟩
    rw [List.mem_filter] at hu
    exact ⟨u, hu.1, by simpa using hu.2⟩
  · rintro ⟨u, hu, hd⟩
    exact ⟨u, List.mem_filter.mpr ⟨hu, by simpa using hd⟩⟩

/-- The empty string is never a key of the domain table: `SaveMapping` counts a domain
only when it is not empty. -/
theorem Shorten_empty_domain_absent (lib : NetURL) (s : InMemoryStore) (v : String)
    (hs : s.domainCounts.get? "" = none) : (Shorten lib s v).2.domainCounts.get? "" = none := by
  by_cases hv : isValidURL lib v = true
  · rcases hg : s.urlToCode.get? v with _ | c
    · rw [Shorten_new_domainCounts lib s v hv hg]
      by_cases hd : extractDomain lib v = ""
      · rw [if_pos hd]; exact hs
      · rw [if_neg hd, GoMap.get?_set_ne _ _ _ _ (fun h => hd h.symm)]; exact hs
    · rw [Shorten_existing lib s v c hv hg]; exact hs
  · rw [Shorten_invalid lib s v (by simpa using hv)]; exact hs

theorem shortenAll_empty_domain_absent (lib : NetURL) (urls : List String) :
    ∀ s : InMemoryStore, s.domainCounts.get? "" = none →
      (shortenAll lib s urls).domainCounts.get? "" = none := by
  induction urls with
  | nil => intro s h; exact h
  | cons v rest ih =>
    intro s h
    simp only [shortenAll, List.foldl_cons]
    exact ih _ (Shorten_empty_domain_absent lib s v h)

/-- C21, amended. Domain counts track new mappings only: after any sequence of `Shorten`
calls on a fresh store, a non-empty domain `d` is present in the domain counter table if
and only if at least one distinct accepted URL of the sequence has host `d`, and its count
equals the number of such distinct URLs and is at least 1; duplicate or invalid
submissions never change a count; the empty domain is never in the table, whatever URLs
were accepted. The count is read under the capacity of the store: fewer than `2 ^ 63`
URLs of host `d` are stored, a Go map having fewer than `2 ^ 63` entries. -/
theorem domainCounts_track_accepted (lib : NetURL) (urls : List String) (d : String)
    (hd : d ≠ "") :
    ((∃ c, (shortenAll lib NewInMemoryStore urls).domainCounts.get? d = some c)
        ↔ ∃ u ∈ accepted lib urls, extractDomain lib u = d) ∧
      (domainOccurrences lib urls d < 2 ^ 63 →
        ∀ c, (shortenAll lib NewInMemoryStore urls).domainCounts.get? d = some c →
          c = (domainOccurrences lib urls d : Int) ∧ 1 ≤ c) ∧
      (∀ u, isValidURL lib u = false ∨ u ∈ urls →
        (Shorten lib (shortenAll lib NewInMemoryStore urls) u).2.domainCounts
          = (shortenAll lib NewInMemoryStore urls).domainCounts) ∧
      (shortenAll lib NewInMemoryStore urls).domainCounts.get? "" = none := by
  have h := reachable_domainCounts lib urls d hd
  refine ⟨?_, ?_, ?_, shortenAll_empty_domain_absent lib urls _ rfl⟩
  · rw [← domainOccurrences_pos_iff, h]
    by_cases h0 : domainOccurrences lib urls d = 0 <;> simp [h0]
  · intro hlt c hc
    rw [h] at hc
    by_cases h0 : domainOccurrences lib urls d = 0
    · simp [h0] at hc
    · simp only [h0, if_false, Option.some.injEq] at hc
      have hpos : 0 < domainOccurrences lib urls d := Nat.pos_of_ne_zero h0
      have hlt' : (domainOccurrences lib urls d : Int) < 2 ^ 63 := by exact_mod_cast hlt
      have hnn : (0 : Int) ≤ (domainOccurrences lib urls d : Int) := Int.natCast_nonneg _
      have hposI : (1 : Int) ≤ (domainOccurrences lib urls d : Int) := by exact_mod_cast hpos
      rw [wrapInt_of_range _ (by omega) hlt'] at hc
      rw [← hc]
      exact ⟨rfl, hposI⟩
  · intro u hu
    by_cases hv : isValidURL lib u = true
    · rcases hu with hu | hu
      · rw [hu] at hv; cases hv
      · obtain ⟨c, hc⟩ := ((shortenAll_keys lib urls).1 u).mpr
          ((mem_accepted lib urls u).mpr ⟨hu, hv⟩)
        rw [Shorten_existing lib _ u c hv hc]
    · rw [Shorten_invalid lib _ u (by simpa using hv)]

theorem domainCounts_track_accepted_witness :
    domainOccurrences goNetURL
        ["https://example.com/1", "https://example.com/2", "not-a-url",
          "https://example.com/1", "https://google.com"] "example.com" = 2 ∧
      ∀ c, (shortenAll goNetURL NewInMemoryStore
          ["https://example.com/1", "https://example.com/2", "not-a-url",
            "https://example.com/1", "https://google.com"]).domainCounts.get? "example.com"
          = some c →
        c = (domainOccurrences goNetURL
            ["https://example.com/1", "https://example.com/2", "not-a-url",
              "https://example.com/1", "https://google.com"] "example.com" : Int) ∧ 1 ≤ c :=
  ⟨by decide,
    (domainCounts_track_accepted goNetURL
      ["https://example.com/1", "https://example.com/2", "not-a-url",
        "https://example.com/1", "https://google.com"] "example.com" (by decide)).2.1
      (by decide)⟩

/-- C21 as stated fails for the empty domain: after `Shorten("http://:8080")` on a fresh
store, the accepted URL `"http://:8080"` has the host `""`, yet `""` is not in the domain
counter table. -/
theorem empty_domain_not_in_table :
    "http://:8080" ∈ accepted goNetURL ["http://:8080"] ∧
      extractDomain goNetURL "http://:8080" = "" ∧
      (shortenAll goNetURL NewInMemoryStore ["http://:8080"]).domainCounts.get? "" = none ∧
      ¬ ((∃ c, (shortenAll goNetURL NewInMemoryStore ["http://:8080"]).domainCounts.get? ""
            = some c)
          ↔ ∃ u ∈ accepted goNetURL ["http://:8080"], extractDomain goNetURL u = "") := by
  have hacc : "http://:8080" ∈ accepted goNetURL ["http://:8080"] := by decide
  have hd : extractDomain goNetURL "http://:8080" = "" := by decide
  have hnone : (shortenAll goNetURL NewInMemoryStore ["http://:8080"]).domainCounts.get? ""
      = none := shortenAll_empty_domain_absent goNetURL _ _ rfl
  refine ⟨hacc, hd, hnone, fun hiff => ?_⟩
  obtain ⟨c, hc⟩ := hiff.mpr ⟨"http://:8080", hacc, hd⟩
  rw [hnone] at hc
  cases hc
/-! ## The sum of the domain counts -/

theorem GoMap.sum_set (m : GoMap Int) (k : String) (v : Int) :
    ((m.set k v).map Prod.snd).sum = (m.map Prod.snd).sum - (m.get? k).getD 0 + v := by
  induction m with
  | nil => simp [GoMap.set, GoMap.get?]
  | cons kv rest ih =>
    obtain ⟨k', v'⟩ := kv
    by_cases h : k' = k
    · simp only [GoMap.set, GoMap.get?, h, if_true, List.map_cons, List.sum_cons,
        Option.getD_some]
      ring
    · simp only [GoMap.set, GoMap.get?, h, if_false, List.map_cons, List.sum_cons, ih]
      ring

theorem GoMap.mem_set {β : Type} (m : GoMap β) (k : String) (v : β) (kv : String × β)
    (h : kv ∈ m.set k v) : kv = (k, v) ∨ kv ∈ m := by
  induction m with
  | nil => simpa [GoMap.set] using h
  | cons kv' rest ih =>
    obtain ⟨k', v'⟩ := kv'
    by_cases hk : k' = k
    · simp only [GoMap.set, hk, if_true, List.mem_cons] at h
      rcases h with h | h
      · exact Or.inl h
      · exact Or.inr (List.mem_cons_of_mem _ h)
    · simp only [GoMap.set, hk, if_false, List.mem_cons] at h
      rcases h with h | h
      · exact Or.inr (by rw [h]; exact List.mem_cons_self _ _)
      · rcases ih h with h' | h'
        · exact Or.inl h'
        · exact Or.inr (List.mem_cons_of_mem _ h')

theorem GoMap.getD_le_sum (m : GoMap Int) (k : String) (hnn : ∀ kv ∈ m, 0 ≤ kv.2) :
    0 ≤ (m.get? k).getD 0 ∧ (m.get? k).getD 0 ≤ (m.map Prod.snd).sum := by
  induction m with
  | nil => simp [GoMap.get?]
  | cons kv rest ih =>
    obtain ⟨k', v'⟩ := kv
    have hv' : 0 ≤ v' := hnn (k', v') (List.mem_cons_self _ _)
    have hrest := ih (fun kv hkv => hnn kv (List.mem_cons_of_mem _ hkv))
    have hsum : 0 ≤ (rest.map Prod.snd).sum := le_trans hrest.1 hrest.2
    by_cases h : k' = k
    · simp only [GoMap.get?, h, if_true, Option.getD_some, List.map_cons, List.sum_cons]
      exact ⟨hv', by omega⟩
    · simp only [GoMap.get?, h, if_false, List.map_cons, List.sum_cons]
      exact ⟨hrest.1, by omega⟩

theorem GoMap.length_keys {β : Type} (m : GoMap β) : m.keys.length = m.length := by
  simp [GoMap.keys]

theorem CountSumInv_new (lib : NetURL) : CountSumInv lib NewInMemoryStore := by
  intro _
  simp [NewInMemoryStore, InMemoryStore.countSum, GoMap.keys]

theorem CountSumInv_Shorten (lib : NetURL) (s : InMemoryStore) (v : String)
    (hs : CountSumInv lib s) : CountSumInv lib (Shorten lib s v).2 := by
  by_cases hv : isValidURL lib v = true
  · rcases hg : s.urlToCode.get? v with _ | c'
    · intro hlen
      have hkeys := Shorten_new_keys lib s v hv hg
      have hlen' : s.urlToCode.length + 1 < 2 ^ 63 := by
        rw [← GoMap.length_keys, hkeys] at hlen
        simpa [GoMap.length_keys] using hlen
      obtain ⟨hnn, hsum⟩ := hs (by omega)
      rw [hkeys, List.filter_append, List.length_append]
      unfold InMemoryStore.countSum at hsum ⊢
      rw [Shorten_new_domainCounts lib s v hv hg]
      by_cases hd : extractDomain lib v = ""
      · rw [if_pos hd]
        refine ⟨hnn, ?_⟩
        rw [hsum]
        simp [List.filter, hd]
      · rw [if_neg hd]
        have hold := GoMap.getD_le_sum s.domainCounts (extractDomain lib v) hnn
        have hle : (s.urlToCode.keys.filter (fun u => extractDomain lib u ≠ "")).length
            ≤ s.urlToCode.length := by
          rw [← GoMap.length_keys]
          exact List.length_filter_le _ _
        have hle' : ((s.urlToCode.keys.filter (fun u => extractDomain lib u ≠ "")).length : Int)
            ≤ (s.urlToCode.length : Int) := by exact_mod_cast hle
        have hlenI : (s.urlToCode.length : Int) + 1 < 2 ^ 63 := by exact_mod_cast hlen'
        have hwrap : wrapInt ((s.domainCounts.get? (extractDomain lib v)).getD 0 + 1)
            = (s.domainCounts.get? (extractDomain lib v)).getD 0 + 1 :=
          wrapInt_of_range _ (by omega) (by omega)
        rw [hwrap]
        refine ⟨?_, ?_⟩
        · intro kv hkv
          rcases GoMap.mem_set _ _ _ _ hkv with h | h
          · rw [h]; simp only; omega
          · exact hnn kv h
        · rw [GoMap.sum_set, hsum]
          simp [List.filter, hd]
          ring
    · rw [Shorten_existing lib s v c' hv hg]; exact hs
  · rw [Shorten_invalid lib s v (by simpa using hv)]; exact hs

theorem CountSumInv_shortenAll (lib : NetURL) (urls : List String) :
    ∀ s : InMemoryStore, CountSumInv lib s → CountSumInv lib (shortenAll lib s urls) := by
  induction urls with
  | nil => intro s h; exact h
  | cons v rest ih => intro s h; exact ih _ (CountSumInv_Shorten lib s v h)

theorem reachable_countSum (lib : NetURL) (urls : List String)
    (hbound : (accepted lib urls).length < 2 ^ 63) :
    (shortenAll lib NewInMemoryStore urls).countSum
      = (((accepted lib urls).filter (fun u => extractDomain lib u ≠ "")).length : Int) := by
  have h := CountSumInv_shortenAll lib urls _ (CountSumInv_new lib)
    (by rw [(shortenAll_keys lib urls).2]; exact hbound)
  rw [h.2, ((reachable_keys_perm lib urls).filter _).length_eq]

/-! ## Validation and domain extraction: C29 -/

theorem isValidURL_host (lib : NetURL) (u : String) (h : isValidURL lib u = true) :
    ∃ p, lib.ParseRequestURI u = some p ∧ p.Host ≠ "" := by
  unfold isValidURL at h
  rcases hp : lib.ParseRequestURI u with _ | p
  · rw [hp] at h; simp at h
  · rw [hp] at h
    refine ⟨p, rfl, ?_⟩
    by_cases hs : p.Scheme ≠ "http" ∧ p.Scheme ≠ "https"
    · simp [hs] at h
    · simpa [hs] using h

/-- C29, amended. Every URL accepted by `isValidURL` has a non-empty parsed `Host`, but
its `extractDomain` (the `Hostname`, port stripped) may be empty: a newly accepted URL
increments exactly one domain counter, the one of its `extractDomain`, when that is
non-empty, and none otherwise; after a sequence of `Shorten` calls on a fresh store that
accepted fewer than `2 ^ 63` distinct URLs, the sum of all domain counts is the number of
stored mappings whose URL has a non-empty `extractDomain`, which is the number of stored
mappings when every accepted URL has one. -/
theorem domain_counts_sum (lib : NetURL) (urls : List String)
    (hbound : (accepted lib urls).length < 2 ^ 63) :
    (∀ u, isValidURL lib u = true → ∃ p, lib.ParseRequestURI u = some p ∧ p.Host ≠ "") ∧
      (∀ u, isValidURL lib u = true → u ∉ urls → extractDomain lib u ≠ "" →
        (Shorten lib (shortenAll lib NewInMemoryStore urls) u).2.domainCounts.get?
            (extractDomain lib u)
          = some (wrapInt (((shortenAll lib NewInMemoryStore urls).domainCounts.get?
              (extractDomain lib u)).getD 0 + 1)) ∧
        ∀ d, d ≠ extractDomain lib u →
          (Shorten lib (shortenAll lib NewInMemoryStore urls) u).2.domainCounts.get? d
            = (shortenAll lib NewInMemoryStore urls).domainCounts.get? d) ∧
      (∀ u, isValidURL lib u = true → u ∉ urls → extractDomain lib u = "" →
        (Shorten lib (shortenAll lib NewInMemoryStore urls) u).2.domainCounts
          = (shortenAll lib NewInMemoryStore urls).domainCounts) ∧
      (shortenAll lib NewInMemoryStore urls).countSum
        = (((accepted lib urls).filter (fun u => extractDomain lib u ≠ "")).length : Int) ∧
      ((∀ u ∈ accepted lib urls, extractDomain lib u ≠ "") →
        (shortenAll lib NewInMemoryStore urls).countSum
          = ((shortenAll lib NewInMemoryStore urls).urlToCode.length : Int)) := by
  have hnew : ∀ u, isValidURL lib u = true → u ∉ urls →
      (shortenAll lib NewInMemoryStore urls).urlToCode.get? u = none := by
    intro u _ hnot
    rcases hq : (shortenAll lib NewInMemoryStore urls).urlToCode.get? u with _ | c
    · rfl
    · exact absurd ((mem_accepted lib urls u).mp
        (((shortenAll_keys lib urls).1 u).mp ⟨c, hq⟩)).1 hnot
  refine ⟨isValidURL_host lib, ?_, ?_, reachable_countSum lib urls hbound, ?_⟩
  · intro u hu hnot hd
    rw [Shorten_new_domainCounts lib _ u hu (hnew u hu hnot), if_neg hd]
    exact ⟨GoMap.get?_set_self _ _ _, fun d hne => GoMap.get?_set_ne _ _ _ _ hne⟩
  · intro u hu hnot hd
    rw [Shorten_new_domainCounts lib _ u hu (hnew u hu hnot), if_pos hd]
  · intro hall
    rw [reachable_countSum lib urls hbound, (shortenAll_keys lib urls).2,
      List.filter_eq_self.mpr]
    intro u hu
    simpa using hall u hu

theorem domain_counts_sum_witness :
    (accepted goNetURL ["https://example.com/1", "https://google.com", "http://:8080"]).length
        < 2 ^ 63 ∧
      (shortenAll goNetURL NewInMemoryStore
          ["https://example.com/1", "https://google.com", "http://:8080"]).countSum
        = (((accepted goNetURL
              ["https://example.com/1", "https://google.com", "http://:8080"]).filter
            (fun u => extractDomain goNetURL u ≠ "")).length : Int) ∧
      ((accepted goNetURL
          ["https://example.com/1", "https://google.com", "http://:8080"]).filter
        (fun u => extractDomain goNetURL u ≠ "")).length = 2 :=
  ⟨by decide,
    (domain_counts_sum goNetURL ["https://example.com/1", "https://google.com", "http://:8080"]
      (by decide)).2.2.2.1,
    by decide⟩

/-- C29 as stated fails for `"http://:8080"`: `isValidURL` accepts it, its parsed `Host`
being `":8080"`, while `extractDomain` is empty; after `Shorten("http://:8080")` on a fresh
store one mapping is stored and the domain table is empty, the sum of its counts 0. -/
theorem empty_domain_accepted :
    isValidURL goNetURL "http://:8080" = true ∧
      extractDomain goNetURL "http://:8080" = "" ∧
      (Shorten goNetURL NewInMemoryStore "http://:8080").1 = ("1", none) ∧
      (Shorten goNetURL NewInMemoryStore "http://:8080").2.urlToCode.length = 1 ∧
      (Shorten goNetURL NewInMemoryStore "http://:8080").2.domainCounts = [] ∧
      (Shorten goNetURL NewInMemoryStore "http://:8080").2.countSum = 0 := by
  have hv : isValidURL goNetURL "http://:8080" = true := by decide
  have hd : extractDomain goNetURL "http://:8080" = "" := by decide
  have hnew : NewInMemoryStore.urlToCode.get? "http://:8080" = none := rfl
  have htable : (Shorten goNetURL NewInMemoryStore "http://:8080").2.domainCounts = [] := by
    rw [Shorten_new_domainCounts goNetURL _ _ hv hnew, if_pos hd]
    rfl
  refine ⟨hv, hd, (first_code goNetURL "http://:8080" [] hv).1, ?_, htable, ?_⟩
  · rw [← GoMap.length_keys, Shorten_new_keys goNetURL _ _ hv hnew]
    rfl
  · unfold InMemoryStore.countSum
    rw [htable]
    rfl

/-! ## Codes in identifier order: C26 -/

theorem shortenResults_valid (lib : NetURL) (urls : List String) :
    ∀ (s : InMemoryStore) (u : String) (r : String × Option Error),
      (u, r) ∈ urls.zip (shortenResults lib s urls) → r.2 = none →
      isValidURL lib u = true := by
  induction urls with
  | nil => intro s u r h; simp at h
  | cons v rest ih =>
    intro s u r h hr
    simp only [shortenResults, List.zip_cons_cons, List.mem_cons, Prod.mk.injEq] at h
    rcases h with ⟨h1, h2⟩ | h
    · subst h1; subst h2
      exact Shorten_ok_valid lib s u (Shorten lib s u).1.1 (Prod.ext rfl hr)
    · exact ih _ u r h hr

/-- C26. Codes are issued in identifier order: on a store driven from fresh by `Shorten`
calls only, the `k`-th distinct valid URL submitted, `k = (accepted lib before).length + 1`,
receives the code `Base62Encode(k)`, so the first accepted URL gets `"1"`; and no call of
a sequence returns `Base62Encode(0) = "0"`. The hypothesis `hk` and the bound on
`(accepted lib urls).length` are the capacity of the store, which holds `k` mappings after
the call: a Go map has fewer than `2 ^ 63` entries. -/
theorem codes_in_identifier_order (lib : NetURL) (before : List String) (u : String)
    (hu : isValidURL lib u = true) (hnew : u ∉ before)
    (hk : (accepted lib before).length + 1 < 2 ^ 64) :
    (Shorten lib (shortenAll lib NewInMemoryStore before) u).1
        = (Base62Encode ((accepted lib before).length + 1), none) ∧
      ((accepted lib before).length = 0 →
        (Shorten lib (shortenAll lib NewInMemoryStore before) u).1 = ("1", none)) ∧
      Base62Encode 0 = "0" ∧
      (∀ urls : List String, (accepted lib urls).length < 2 ^ 64 →
        ∀ v r, (v, r) ∈ urls.zip (shortenResults lib NewInMemoryStore urls) →
          r.2 = none → r.1 ≠ "0") := by
  have hg : (shortenAll lib NewInMemoryStore before).urlToCode.get? u = none := by
    rcases hq : (shortenAll lib NewInMemoryStore before).urlToCode.get? u with _ | c
    · rfl
    · exact absurd ((mem_accepted lib before u).mp
        (((shortenAll_keys lib before).1 u).mp ⟨c, hq⟩)).1 hnew
  have hcode : (Shorten lib (shortenAll lib NewInMemoryStore before) u).1
      = (Base62Encode ((accepted lib before).length + 1), none) := by
    rw [Shorten_new lib _ u hu hg, reachable_idCounter]
    have hid : ((accepted lib before).length % 2 ^ 64 + 1) % 2 ^ 64
        = (accepted lib before).length + 1 := by
      rw [two_pow_64] at hk ⊢
      omega
    rw [hid]
  refine ⟨hcode, ?_, Base62Encode_zero, ?_⟩
  · intro h0
    rw [hcode, h0, Base62Encode_small 1 (by decide) (by decide)]
    decide
  · intro urls hbound v r hmem hr hzero
    have hv := shortenResults_valid lib urls _ v r hmem hr
    have hurl := (shortenResults_eq lib urls _ v r hmem hv).2
    have hcodeToURL := (reachable_bijection lib urls (le_of_lt hbound) r.1 v).mpr hurl
    obtain ⟨⟨_, h2, _⟩, hlen⟩ := reachable_inv lib urls
    obtain ⟨i, hi1, hi2, hi3⟩ := h2 _ _ hcodeToURL
    rw [hzero, ← Base62Encode_zero] at hi3
    have := Base62Encode_inj _ _ hi3
    rw [hlen] at hi2
    rw [two_pow_64] at this hbound
    omega

theorem codes_in_identifier_order_witness :
    isValidURL goNetURL "https://example.com/2" = true ∧
      "https://example.com/2" ∉ ["https://example.com/1", "not-a-url"] ∧
      (accepted goNetURL ["https://example.com/1", "not-a-url"]).length + 1 = 2 ∧
      (Shorten goNetURL
          (shortenAll goNetURL NewInMemoryStore ["https://example.com/1", "not-a-url"])
          "https://example.com/2").1
        = (Base62Encode ((accepted goNetURL ["https://example.com/1", "not-a-url"]).length + 1),
            none) :=
  ⟨by decide, by decide, by decide,
    (codes_in_identifier_order goNetURL ["https://example.com/1", "not-a-url"]
      "https://example.com/2" (by decide) (by decide) (by decide)).1⟩


end UrlShortener
